import Mathlib

/-!
Verification development for the LSMTool sky-model codec and merge engine
(files `lsmtool/tableio.py`, `lsmtool/operations/concatenate.py`).

Python strings are modelled as `List Char`; Python floats as `ℚ` (the angle
and spectral-index arithmetic of the source is exact on the decimal literals
appearing in the claims, so rationals are a faithful idealisation of the
float arithmetic, up to the numeric-formatting precision the specification
itself excludes); fallible Python code (uncaught exceptions, `try/except`
blocks that re-raise) is modelled with `Option`/`Except`.
-/

namespace LSM

/-- Tokens of the makesourcedb text format: a Python string as a char list. -/
abbrev Tok := List Char

/-- Whitespace test used by the model of Python `str.strip()`. -/
def isWS (c : Char) : Bool := c = ' ' ∨ c = '\t' ∨ c = '\n' ∨ c = '\r'

/-- Model of Python `str.lstrip()` restricted to whitespace. -/
def lstripWS (cs : Tok) : Tok := cs.dropWhile isWS

/-- Model of Python `str.strip()` (whitespace from both ends). -/
def pyStrip (cs : Tok) : Tok := (lstripWS ((lstripWS cs.reverse).reverse))

/-- Model of Python `str.strip(chars)`: drop characters of `set` from both ends. -/
def pyStripSet (set : List Char) (cs : Tok) : Tok :=
  ((cs.dropWhile (· ∈ set)).reverse.dropWhile (· ∈ set)).reverse

/-- Model of Python `str.split(sep)` for a one-character separator `c`.  The
result is always nonempty, so extending a nonempty head is total. -/
def splitOnChar (c : Char) : Tok → List Tok
  | [] => [[]]
  | x :: xs =>
    let r := splitOnChar c xs
    if x = c then [] :: r else (x :: r.headI) :: r.tail

/-- Model of Python `sep.join(parts)` for a one-character separator. -/
def joinWith (c : Char) : List Tok → Tok
  | [] => []
  | [p] => p
  | p :: ps => p ++ c :: joinWith c ps

/-- Model of Python `str.replace(old, new, count)` for one-character arguments. -/
def replaceFirstN (old new : Char) : Nat → Tok → Tok
  | _, [] => []
  | 0, cs => cs
  | n + 1, x :: xs =>
    if x = old then new :: replaceFirstN old new n xs
    else x :: replaceFirstN old new (n + 1) xs

/-- Numeric value of a digit run (used by the float-literal model). -/
def digitsVal (cs : Tok) : Nat := cs.foldl (fun a c => 10 * a + (c.toNat - 48)) 0

/-- Syntactic shape of an accepted Python decimal float literal: sign flag,
integer-part digit value, fractional-part digit value and digit count.  Kept
separate from the rational valuation so that parsing stays kernel-decidable. -/
structure FloatLit where
  neg : Bool
  intPart : Nat
  fracPart : Nat
  fracLen : Nat
deriving DecidableEq

/-- Rational value denoted by a parsed float literal.  Note the value of a
`-0...` literal is `-0 = 0`, exactly as `float("-0") = -0.0` behaves in every
arithmetic context of the source. -/
def floatLitVal (f : FloatLit) : ℚ :=
  let mag : ℚ := (f.intPart : ℚ) + (f.fracPart : ℚ) / (10 : ℚ) ^ f.fracLen
  if f.neg then -mag else mag

/-- Unsigned decimal literal: digit run with at most one interior dot
(`"12"`, `"12."`, `".5"`, `"12.5"`).  The exponent and inf/nan forms accepted
by Python never occur in the formats under study and are out of the model. -/
def parseUnsignedLit (neg : Bool) (cs : Tok) : Option FloatLit :=
  match splitOnChar '.' cs with
  | [a] =>
    if a.isEmpty then none
    else if a.all Char.isDigit then some ⟨neg, digitsVal a, 0, 0⟩ else none
  | [a, b] =>
    if a.isEmpty ∧ b.isEmpty then none
    else if a.all Char.isDigit ∧ b.all Char.isDigit then
      some ⟨neg, digitsVal a, digitsVal b, b.length⟩
    else none
  | _ => none

/-- Syntactic part of the model of Python `float(s)`: strip whitespace, then
an optional sign followed by an unsigned decimal literal. -/
def parseFloatSyn (cs : Tok) : Option FloatLit :=
  match pyStrip cs with
  | '-' :: rest => parseUnsignedLit true rest
  | '+' :: rest => parseUnsignedLit false rest
  | s => parseUnsignedLit false s

/-- Model of Python `float(s)` as a rational number. -/
def parseFloat (cs : Tok) : Option ℚ :=
  (parseFloatSyn cs).map floatLitVal

/-- A value in one of the Python batches handed to the angle codec: a string or
a number. -/
inductive PyVal where
  | str (s : Tok)
  | num (q : ℚ)
deriving DecidableEq

/-- Mapper for a Python list comprehension wrapped in `try`: the whole batch
fails as soon as one element fails. -/
def optMap (f : α → Option β) : List α → Option (List β)
  | [] => some []
  | x :: xs => do
    let y ← f x
    let ys ← optMap f xs
    pure (y :: ys)

/-- Sexagesimal right-ascension conversion of one token, from `RA2Angle`
(tableio.py lines 330-333): split on `:` and compute
`(H + M/60 + S/3600) * 15`; fewer than three parts (or an unparsable part)
raises, extra parts are ignored by the `[0]`, `[1]`, `[2]` indexing. -/
def raSexToDeg (s : Tok) : Option ℚ :=
  match splitOnChar ':' s with
  | p0 :: p1 :: p2 :: _ => do
    let h ← parseFloat p0
    let m ← parseFloat p1
    let sec ← parseFloat p2
    pure ((h + m / 60 + sec / 3600) * 15)
  | _ => none

/-- Sexagesimal declination conversion of one token, from `Dec2Angle`
(tableio.py lines 363-367): replace the first two `.` by `:`, split on `:` and
compute `D + M/60 + S/3600`.  The minute and second terms are always added,
so only the degree component carries a sign. -/
def decSexToDeg (s : Tok) : Option ℚ :=
  match splitOnChar ':' (replaceFirstN '.' ':' 2 s) with
  | p0 :: p1 :: p2 :: _ => do
    let d ← parseFloat p0
    let m ← parseFloat p1
    let sec ← parseFloat p2
    pure (d + m / 60 + sec / 3600)
  | _ => none

/-- Model of `RA2Angle` (tableio.py lines 310-340) on an already-listed batch:
the first element decides string vs numeric mode; in string mode every element
must be a string converting successfully, else the bare `except` raises
(`none`).  A numeric batch is returned unchanged (degrees in, degrees out). -/
def RA2Angle (RA : List PyVal) : Option (List ℚ) :=
  match RA with
  | [] => none
  | PyVal.str _ :: _ =>
    optMap (fun v =>
      match v with
      | PyVal.str s => raSexToDeg s
      | PyVal.num _ => none) RA
  | PyVal.num _ :: _ =>
    optMap (fun v =>
      match v with
      | PyVal.num q => some q
      | PyVal.str _ => none) RA

/-- Model of `Dec2Angle` (tableio.py lines 343-374), same batch discipline as
`RA2Angle` but with the dot-separated sexagesimal form. -/
def Dec2Angle (Dec : List PyVal) : Option (List ℚ) :=
  match Dec with
  | [] => none
  | PyVal.str _ :: _ =>
    optMap (fun v =>
      match v with
      | PyVal.str s => decSexToDeg s
      | PyVal.num _ => none) Dec
  | PyVal.num _ :: _ =>
    optMap (fun v =>
      match v with
      | PyVal.num q => some q
      | PyVal.str _ => none) Dec

/-- Raw SpectralIndex cell as delivered by the astropy column's `tolist()`:
a float cell or an unsplit string cell (tableio.py lines 241-265).  A
well-formed file yields a homogeneous batch (the column has one dtype). -/
inductive SpecRaw where
  | flt (q : ℚ)
  | str (s : Tok)
deriving DecidableEq

/-- Parse one SpectralIndex string cell (tableio.py line 249): split on `;`
and convert every part with `float`; a failing part raises inside the row's
try-block, failing the whole cell. -/
def parseSpecEntry (s : Tok) : Option (List ℚ) :=
  optMap parseFloat (splitOnChar ';' s)

/-- One step of the first conversion pass (tableio.py lines 244-253): a float
cell overwrites the running maximum with 1 (`maxLen = 1` is an assignment, not
a max); a string cell that parses raises the maximum to its length when
longer; a failing cell is skipped by `except: pass`. -/
def specMaxLenStep (m : Nat) : SpecRaw → Nat
  | SpecRaw.flt _ => 1
  | SpecRaw.str s =>
    match parseSpecEntry s with
    | some es => if es.length > m then es.length else m
    | none => m

/-- Catalog-wide maximum coefficient count observed in the first pass. -/
def specMaxLen (xs : List SpecRaw) : Nat := xs.foldl specMaxLenStep 0

/-- Zero padding loop `while len(specEntry) < maxLen: specEntry.append(0.0)`:
the entry is extended on the right to the target width, never truncated. -/
def padZeros (m : Nat) (es : List ℚ) : List ℚ :=
  es ++ List.replicate (m - es.length) 0

/-- Second conversion pass (tableio.py lines 255-265): every cell becomes its
parsed coefficient list padded to the first pass's maximum; an unparsable cell
becomes the zero vector of that width. -/
def specConvert (xs : List SpecRaw) : List (List ℚ) :=
  xs.map fun l =>
    match l with
    | SpecRaw.flt q => padZeros (specMaxLen xs) [q]
    | SpecRaw.str s =>
      match parseSpecEntry s with
      | some es => padZeros (specMaxLen xs) es
      | none => List.replicate (specMaxLen xs) 0

/-- The `keep` parameter of `concatenate` (concatenate.py line 42). -/
inductive Keep where
  | all
  | from1
  | from2
deriving DecidableEq

/-- Model of `np.where(vals == val)[0]`: the ascending list of indices of
`vals` holding `val` (concatenate.py lines 157 and 140/143). -/
def dupIndices [DecidableEq K] (vals : List K) (v : K) : List Nat :=
  (List.range vals.length).filter (fun i => vals[i]? = some v)

/-- Number of occurrences of a value in a list (instance-stable counterpart
of `List.count`, used to state occurrence positions). -/
def countOcc [DecidableEq K] (v : K) (l : List K) : Nat :=
  (l.filter fun x => x = v).length

/-- Model of astropy `Table.remove_rows(toRemove)`: the rows whose indices are
not named are kept in order; duplicate indices in the removal list are
harmless (mask semantics). -/
def removeRows (rows : List α) (rem : List Nat) : List α :=
  (List.range rows.length).filterMap fun i => if i ∈ rem then none else rows[i]?

/-- Indices one visit of the removal loop appends for a duplicated key
(concatenate.py lines 159-162): `from1` appends `indx[1:]`, all occurrences
past the first; `from2` appends `indx[0]`, the first occurrence.  The loop
body is unreachable for `keep = all`. -/
def removeSlice [DecidableEq K] (keep : Keep) (vals : List K) (v : K) : List Nat :=
  match keep with
  | Keep.from1 => (dupIndices vals v).tail
  | Keep.from2 => [(dupIndices vals v).headI]
  | Keep.all => []

/-- The removal loop of `concatenate` (concatenate.py lines 155-162): iterate
over every row's key value; whenever the key occurs more than once, append
that key's removal slice.  (The loop revisits a duplicated key once per
occurrence, which only repeats the same indices.) -/
def toRemove [DecidableEq K] (keep : Keep) (vals : List K) : List Nat :=
  vals.foldl (fun acc v =>
    if (dupIndices vals v).length > 1 then acc ++ removeSlice keep vals v
    else acc) []

/-- Conflict resolution of `concatenate` (concatenate.py lines 148-163) on
rows paired with their duplicate-key value: for `keep = all` the removal block
is skipped entirely. -/
def resolveConflicts [DecidableEq K] (keep : Keep) (rows : List (K × α)) :
    List (K × α) :=
  match keep with
  | Keep.all => rows
  | _ => removeRows rows (toRemove keep (rows.map Prod.fst))

/-- One visit of the rename pass of `concatenate` (concatenate.py lines
167-171): if the visited name occurs more than once in the snapshot `names`,
its first two occurrence indices are overwritten with `name_1` and `name_2`
in the current table. -/
def renameStep (names cur : List Tok) (v : Tok) : List Tok :=
  if (dupIndices names v).length > 1 then
    (cur.set (dupIndices names v).headI (v ++ ['_', '1'])).set
      (dupIndices names v).tail.headI (v ++ ['_', '2'])
  else cur

/-- The rename pass of `concatenate` (concatenate.py lines 165-171): fold the
per-name update over the distinct names of the snapshot (`set(names)`; the
iteration order is immaterial because distinct names touch disjoint index
sets, `dedup` is one such enumeration), starting from the snapshot itself.
Occurrence indices always refer to the snapshot, not the updated table. -/
def renamePass (names : List Tok) : List Tok :=
  names.dedup.foldl (renameStep names) names

/-- Name-column pipeline of a merge (concatenate.py lines 111-112, 148-171)
for `matchBy = name`: rows of both catalogs are stacked, conflicts are
resolved on the `Name` key, and the rename pass always follows. -/
def mergeNamesByName (keep : Keep) (names1 names2 : List Tok) : List Tok :=
  renamePass (((resolveConflicts keep
    (((names1 ++ names2).map fun n => (n, ())))).map Prod.fst))

/-- Value a renamed position must hold: a name occurring more than once gets
`_1` at its first occurrence and `_2` at its second, all other positions keep
their name. -/
def renameTarget (names : List Tok) (i : Nat) (v : Tok) : Tok :=
  if 1 < countOcc v names then
    if countOcc v (names.take i) = 0 then v ++ ['_', '1']
    else if countOcc v (names.take i) = 1 then v ++ ['_', '2']
    else v
  else v

/-- A sky position handed to the cross matcher: (RA, Dec) in degrees. -/
abbrev Pos := ℚ × ℚ

/-- Scan of the nearest-neighbour search past the first catalog entry,
carrying the running best (index, separation); a strictly smaller separation
replaces the best, so ties keep the earliest index. -/
def nearestAux (d : Pos → Pos → ℚ) (p : Pos) : List Pos → Nat → Nat × ℚ → Nat × ℚ
  | [], _, best => best
  | c :: cs, i, best =>
    nearestAux d p cs (i + 1) (if d p c < best.2 then (i, d p c) else best)

/-- Nearest-neighbour search of one point in a catalog, parametrized by the
angular-separation function `d` (astropy computes the great-circle
separation; the matching logic is independent of its closed form).  An empty
catalog raises in astropy; the model returns a junk pair there. -/
def nearestIdx (d : Pos → Pos → ℚ) (p : Pos) (cat : List Pos) : Nat × ℚ :=
  match cat with
  | [] => (0, 0)
  | c :: cs => nearestAux d p cs 1 (0, d p c)

/-- The `idx`/`d2d` arrays of `catalog1.match_to_catalog_sky(catalog2)`
(concatenate.py line 119): for every row of catalog 1, the index of its
nearest row of catalog 2 and the separation. -/
def matchToCatalogSky (d : Pos → Pos → ℚ) (cat1 cat2 : List Pos) :
    List (Nat × ℚ) :=
  cat1.map fun p => nearestIdx d p cat2

/-- The catalog-2 `match` id column (concatenate.py lines 121-133): catalog-2
row j starts with unique id `len(cat1) + j`; then
`matchCol2[idx[matches]] = matchCol1[matches]` assigns, for every catalog-1
row i whose nearest catalog-2 separation is within the radius, the id i to
catalog-2 row idx[i] — numpy fancy assignment, so later catalog-1 rows
overwrite earlier ones on collision. -/
def matchAssign (d : Pos → Pos → ℚ) (cat1 cat2 : List Pos) (radius : ℚ)
    (col : List Nat) (i : Nat) : List Nat :=
  match (matchToCatalogSky d cat1 cat2)[i]? with
  | some jd => if jd.2 ≤ radius then col.set jd.1 i else col
  | none => col

/-- The whole catalog-2 id column: start from the unique ids and run the
assignment over the catalog-1 rows in order. -/
def buildMatchCol2 (d : Pos → Pos → ℚ) (cat1 cat2 : List Pos) (radius : ℚ) :
    List Nat :=
  (List.range cat1.length).foldl (matchAssign d cat1 cat2 radius)
    ((List.range cat2.length).map fun j => cat1.length + j)

/-- Catalog-1 row `i` claims catalog-2 row `j`: `j` is `i`'s nearest
neighbour and the separation is within the radius. -/
def withinMatch (d : Pos → Pos → ℚ) (cat1 cat2 : List Pos) (radius : ℚ)
    (i j : Nat) : Prop :=
  ∃ dd, (matchToCatalogSky d cat1 cat2)[i]? = some (j, dd) ∧ dd ≤ radius

/-- Match-id column that the specification's words describe, for the
refinement comparison (spec §4.5/§4.6): every CATALOG-2 row queries catalog 1
for its nearest neighbour and adopts that catalog-1 row's id exactly when the
separation is within the radius. -/
def buildMatchCol2Spec (d : Pos → Pos → ℚ) (cat1 cat2 : List Pos) (radius : ℚ) :
    List Nat :=
  cat2.mapIdx fun j p =>
    let r := nearestIdx d p cat1
    if r.2 ≤ radius then r.1 else cat1.length + j

/-- Angular separation restricted to points on the celestial equator whose
right ascensions differ by at most 180 degrees: there the great-circle
separation is exactly the right-ascension difference (cos sep = cos Δra), so
this instantiates the abstract separation function on such inputs. -/
def eqSep (p q : Pos) : ℚ := |p.1 - q.1|

/-- Model of the numpy assignment `spData[i] = spCol[indx]` with `spData` a
width-2 zero matrix (concatenate.py lines 137-144): `indx` is the list of
matching row indices; broadcasting accepts exactly one matching row, of width
2 (copied) or width 1 (its value duplicated into both slots); any other shape
raises. -/
def assignRow2 (rows : List (List ℚ)) (idxs : List Nat) : Option (List ℚ) :=
  match idxs with
  | [j] =>
    match rows[j]? with
    | some [v] => some [v, v]
    | some [a, b] => some [a, b]
    | _ => none
  | _ => none

/-- SpectralIndex reattachment after stacking (concatenate.py lines 136-146):
the column is rebuilt row by row over the merged Name column; each value is
looked up by name in catalog 2 when the name occurs there, else in
catalog 1. -/
def reattachSpectral (mergedNames names1 names2 : List Tok)
    (sp1 sp2 : List (List ℚ)) : Option (List (List ℚ)) :=
  optMap (fun name =>
    if name ∈ names2 then assignRow2 sp2 (dupIndices names2 name)
    else assignRow2 sp1 (dupIndices names1 name)) mergedNames

/-- The single-quote character, named to keep source text free of quote
escapes. -/
def quoteChar : Char := Char.ofNat 39

/-- Scan for the header token holding an unmatched opening bracket
(tableio.py lines 126-128): the loop keeps the LAST such token. -/
def findCnStart (ts : List Tok) : Option Tok :=
  ts.foldl (fun acc cn => if '[' ∈ cn ∧ ']' ∉ cn then some cn else acc) none

/-- Scan for the header token holding an unmatched closing bracket
(tableio.py lines 129-130): the loop keeps the LAST such token. -/
def findCnEnd (ts : List Tok) : Option Tok :=
  ts.foldl (fun acc cn => if ']' ∈ cn ∧ '[' ∉ cn then some cn else acc) none

/-- Model of Python `list.index(v)`: the first index holding the value. -/
def listIndex [DecidableEq K] (l : List K) (v : K) : Option Nat :=
  (dupIndices l v).head?

/-- The token-rejoining loop of the header parser (tableio.py lines 134-148),
carried out over the remaining tokens with the running index, the fixed
output and the fragments collected so far: tokens before `indx1` pass
through; tokens from `indx1` to `indx2` are collected and flushed as one
comma-joined token either at the end of the list or just before the token
following `indx2`; later tokens pass through. -/
def bjLoop (n indx1 indx2 : Nat) : List Tok → Nat → List Tok → List Tok → List Tok
  | [], _, fixed, _ => fixed
  | cn :: rest, i, fixed, toJoin =>
    if i < indx1 then bjLoop n indx1 indx2 rest (i + 1) (fixed ++ [cn]) toJoin
    else if i ≤ indx2 then
      if i = n - 1 then
        bjLoop n indx1 indx2 rest (i + 1)
          (fixed ++ [joinWith ',' (toJoin ++ [cn])]) (toJoin ++ [cn])
      else bjLoop n indx1 indx2 rest (i + 1) fixed (toJoin ++ [cn])
    else if i = indx2 + 1 then
      bjLoop n indx1 indx2 rest (i + 1)
        (fixed ++ [joinWith ',' toJoin, cn]) toJoin
    else bjLoop n indx1 indx2 rest (i + 1) (fixed ++ [cn]) toJoin

/-- Run the rejoining loop over the whole comma-split header. -/
def bracketFixLoop (ts : List Tok) (indx1 indx2 : Nat) : List Tok :=
  bjLoop ts.length indx1 indx2 ts 0 [] []

/-- The header bracket fix (tableio.py lines 124-149): when some token holds
an unmatched `[`, locate the first occurrences of the scan results and rejoin
the span between them; a missing unmatched `]` makes `colNames.index(None)`
raise. -/
def fixColNames (ts : List Tok) : Option (List Tok) :=
  match findCnStart ts with
  | none => some ts
  | some cnStart =>
    match findCnEnd ts with
    | none => none
    | some cnEnd =>
      match listIndex ts cnStart, listIndex ts cnEnd with
      | some i1, some i2 => some (bracketFixLoop ts i1 i2)
      | _, _ => none

/-- A column default parsed from the header (tableio.py lines 158-171): a
float list when the literal holds `[`, else a single float. -/
inductive HeaderDefault where
  | list (qs : List ℚ)
  | flt (q : ℚ)
deriving DecidableEq

/-- Default-extraction for one logical header token (tableio.py lines
156-171): split on `=`; exactly two parts mean a default literal, which is
parsed as a bracketed comma-separated float list when it holds `[`, else as
one float; a parse failure (or no `=`) leaves the default absent. -/
def parseColDefault (tok : Tok) : Option HeaderDefault :=
  match splitOnChar '=' tok with
  | [_, p1] =>
    if '[' ∈ p1 then
      match optMap (fun p => parseFloat (pyStrip p))
          (splitOnChar ',' (pyStripSet [quoteChar, '[', ']'] p1)) with
      | some qs => some (HeaderDefault.list qs)
      | none => none
    else
      match parseFloat (pyStripSet [quoteChar] p1) with
      | some q => some (HeaderDefault.flt q)
      | none => none
  | _ => none

/-- Accumulated reader state while scanning data lines: the patch metadata
entries recorded so far (assignment log of `metaDict`, last entry per name
winning as in a dict) and the buffered row lines (`outlines`). -/
structure ParseState where
  meta : List (Tok × (ℚ × ℚ))
  rows : List (List Tok)
deriving DecidableEq

/-- Padding of a short data line with blank fields
(tableio.py lines 217-218). -/
def padTokens (numCols : Nat) (cols : List Tok) : List Tok :=
  cols ++ List.replicate (numCols - cols.length) [' ']

/-- Processing of one comma-split data line (tableio.py lines 205-219): a
blank first field makes the line a patch definition when it has more than 4
fields (name from field 2, position parsed from fields 3 and 4, an angle
failure raising) and is skipped silently otherwise; a non-blank first field
buffers the padded line as a row. -/
def processDataLine (numCols : Nat) (st : ParseState) (cols : List Tok) :
    Except Unit ParseState :=
  if pyStrip cols.headI = [] then
    if h : cols.length > 4 then
      match RA2Angle [PyVal.str (pyStrip (cols.get ⟨3, by omega⟩))],
          Dec2Angle [PyVal.str (pyStrip (cols.get ⟨4, by omega⟩))] with
      | some [ra], some [dec] =>
        Except.ok ⟨st.meta ++ [(pyStrip (cols.get ⟨2, by omega⟩), (ra, dec))],
          st.rows⟩
      | _, _ => Except.error ()
    else Except.ok st
  else Except.ok ⟨st.meta, st.rows ++ [padTokens numCols cols]⟩

/-- Processing of a whole sequence of data lines, stopping at the first
raised error. -/
def processDataLines (numCols : Nat) (st : ParseState) :
    List (List Tok) → Except Unit ParseState
  | [] => Except.ok st
  | l :: ls =>
    match processDataLine numCols st l with
    | Except.ok st2 => processDataLines numCols st2 ls
    | Except.error e => Except.error e

/-- Byte-wise lexicographic comparison of names, the ordering numpy applies
to the S50 Patch column when astropy `group_by` sorts the table. -/
def leTok : Tok → Tok → Bool
  | [], _ => true
  | _ :: _, [] => false
  | a :: as, b :: bs =>
    if a.toNat < b.toNat then true
    else if b.toNat < a.toNat then false
    else leTok as bs

/-- Stable insertion of a keyed row into a sorted list: the row goes after
every row whose key is `le` it, so rows with equal keys keep their original
relative order. -/
def insertSorted (le : K → K → Bool) (x : K × α) :
    List (K × α) → List (K × α)
  | [] => [x]
  | y :: ys =>
    if le y.1 x.1 then y :: insertSorted le x ys else x :: y :: ys

/-- Model of astropy `table.group_by('Patch')`: a stable ascending sort of
the rows by their Patch key (astropy argsorts with mergesort, which is
stable). -/
def sortByKey (le : K → K → Bool) (rows : List (K × α)) : List (K × α) :=
  rows.foldl (fun acc r => insertSorted le r acc) []

/-- Adjacent deduplication; on a sorted key column this is astropy's
`table.groups.keys`, the distinct keys in sorted order. -/
def dedupAdj [DecidableEq K] : List K → List K
  | [] => []
  | [x] => [x]
  | x :: y :: t => if x = y then dedupAdj (y :: t) else x :: dedupAdj (y :: t)

/-- Dictionary lookup in the metadata assignment log: the last assignment to
a name wins, a missing name yields nothing. -/
def lookupMeta (meta : List (Tok × (ℚ × ℚ))) (name : Tok) : Option (ℚ × ℚ) :=
  (meta.reverse.find? fun e => e.1 = name).map Prod.snd

/-- One output line of the sky-model writer.  The header block is abstracted
to one marker line and each data row to its Patch key plus opaque payload:
the grouping claim concerns only line kinds, order and patch positions. -/
inductive OutLine (α : Type) where
  | formatLine
  | patchLine (name : Tok) (ra dec : ℚ)
  | srcLine (r : Tok × α)
deriving DecidableEq

/-- The patch-grouped body of `skyModelWriter` (tableio.py lines 434-457):
with a Patch column the table is group-sorted, ALL patch-definition lines are
emitted first — one per distinct patch in sorted order, using the meta
position when recorded, else (0, 0) — and all source rows follow, sorted by
patch; without a Patch column the rows are emitted in table order. -/
def skyModelWriterLines (le : Tok → Tok → Bool) (hasPatchCol : Bool)
    (meta : List (Tok × (ℚ × ℚ))) (rows : List (Tok × α)) : List (OutLine α) :=
  if hasPatchCol then
    OutLine.formatLine ::
      ((dedupAdj ((sortByKey le rows).map Prod.fst)).map fun p =>
        match lookupMeta meta p with
        | some pos => OutLine.patchLine p pos.1 pos.2
        | none => OutLine.patchLine p 0 0) ++
      (sortByKey le rows).map OutLine.srcLine
  else OutLine.formatLine :: rows.map OutLine.srcLine

/-- First-seen enumeration of keys, used only to state the specification's
claimed output for the refinement comparison. -/
def firstSeen [DecidableEq K] (l : List K) : List K :=
  l.foldl (fun acc x => if x ∈ acc then acc else acc ++ [x]) []

/-- Writer body that the specification's words describe, for the refinement
comparison: patches in first-seen order, each patch-definition line
immediately followed by that patch's rows. -/
def skyModelWriterSpecLines (hasPatchCol : Bool)
    (meta : List (Tok × (ℚ × ℚ))) (rows : List (Tok × α)) : List (OutLine α) :=
  if hasPatchCol then
    OutLine.formatLine ::
      (firstSeen (rows.map Prod.fst)).flatMap (fun p =>
        (match lookupMeta meta p with
          | some pos => OutLine.patchLine p pos.1 pos.2
          | none => OutLine.patchLine p 0 0) ::
        (rows.filter fun r => r.1 = p).map OutLine.srcLine)
  else OutLine.formatLine :: rows.map OutLine.srcLine

/-- Two-digit zero padding of a minute or second field, as astropy's
sexagesimal formatter prints it. -/
def pad2 (n : Nat) : Tok :=
  if n < 10 then '0' :: (Nat.repr n).data else (Nat.repr n).data

/-- Model of `Angle(d, unit=degree).to_string(unit=degree, sep=dot)` as
called by `rowStr` (tableio.py line 506) on a declination whose magnitude is
a whole number of arcseconds: a `-` sign is printed first when the angle is
negative, then the degree, minute and second fields of the MAGNITUDE,
separated by `.`, with minutes and seconds zero-padded to two digits. -/
def formatDecSex (q : ℚ) : Tok :=
  let t : Nat := (⌊|q| * 3600⌋).toNat
  (if q < 0 then ['-'] else []) ++
    ((Nat.repr (t / 3600)).data ++ '.' :: (pad2 (t % 3600 / 60) ++ '.' :: pad2 (t % 60)))

/-! ### Lemmas and claim theorems -/

/-- A character not separated on leaves the split of its absence alone. -/
theorem splitOnChar_not_mem {c : Char} {a : Tok} (h : c ∉ a) :
    splitOnChar c a = [a] := by
  induction a with
  | nil => rfl
  | cons x xs ih =>
    simp only [List.mem_cons, not_or] at h
    rw [splitOnChar]
    simp only [ih h.2]
    rw [if_neg (fun hx => h.1 hx.symm)]
    simp

/-- Splitting an append across one separator occurrence. -/
theorem splitOnChar_append {c : Char} {a : Tok} (rest : Tok) (h : c ∉ a) :
    splitOnChar c (a ++ c :: rest) = a :: splitOnChar c rest := by
  induction a with
  | nil =>
    rw [List.nil_append, splitOnChar]
    simp
  | cons x xs ih =>
    simp only [List.mem_cons, not_or] at h
    rw [List.cons_append, splitOnChar]
    simp only [ih h.2]
    rw [if_neg (fun hx => h.1 hx.symm)]
    simp

/-- Replacement leaves a string without the old character alone. -/
theorem replaceFirstN_not_mem {old new : Char} {a : Tok} (n : Nat) (h : old ∉ a) :
    replaceFirstN old new n a = a := by
  induction a generalizing n with
  | nil => cases n <;> rfl
  | cons x xs ih =>
    simp only [List.mem_cons, not_or] at h
    cases n with
    | zero => rfl
    | succ k =>
      rw [replaceFirstN, if_neg (fun hx => h.1 hx.symm), ih _ h.2]

/-- Replacement consumes one occurrence past an occurrence-free prefix. -/
theorem replaceFirstN_append {old new : Char} {a : Tok} (n : Nat) (rest : Tok)
    (h : old ∉ a) :
    replaceFirstN old new (n + 1) (a ++ old :: rest) =
      a ++ new :: replaceFirstN old new n rest := by
  induction a with
  | nil => simp [replaceFirstN]
  | cons x xs ih =>
    simp only [List.mem_cons, not_or] at h
    rw [List.cons_append, replaceFirstN, if_neg (fun hx => h.1 hx.symm), ih h.2,
      List.cons_append]

/-- Replacement with a zero budget is the identity. -/
theorem replaceFirstN_zero {old new : Char} (a : Tok) :
    replaceFirstN old new 0 a = a := by
  cases a <;> rfl

/-- Decomposition of the declination conversion: on a token of the shape
`D.M.S` (degree and minute fields free of dots and colons, second field free
of colons) the first two dots are rewritten to colons and the three fields
are converted as `D + M/60 + S/3600`. -/
theorem decSexToDeg_decomp {a b c : Tok} {d m sec : ℚ}
    (ha1 : '.' ∉ a) (ha2 : ':' ∉ a) (hb1 : '.' ∉ b) (hb2 : ':' ∉ b) (hc : ':' ∉ c)
    (hd : parseFloat a = some d) (hm : parseFloat b = some m)
    (hs : parseFloat c = some sec) :
    decSexToDeg (a ++ '.' :: (b ++ '.' :: c)) = some (d + m / 60 + sec / 3600) := by
  have hrepl : replaceFirstN '.' ':' 2 (a ++ '.' :: (b ++ '.' :: c)) =
      a ++ ':' :: (b ++ ':' :: c) := by
    rw [show (2 : Nat) = 1 + 1 from rfl, replaceFirstN_append 1 _ ha1,
      show (1 : Nat) = 0 + 1 from rfl, replaceFirstN_append 0 _ hb1,
      replaceFirstN_zero]
  have hsplit : splitOnChar ':' (a ++ ':' :: (b ++ ':' :: c)) = [a, b, c] := by
    rw [splitOnChar_append _ ha2, splitOnChar_append _ hb2, splitOnChar_not_mem hc]
  rw [decSexToDeg, hrepl, hsplit]
  simp [hd, hm, hs]

/-- C8 (confirmed): for every declination batch whose first element is a
string, `Dec2Angle` treats only the first two `.` characters of each string as
field separators — a token of the shape `D.M.S` (with `S` free to contain
further dots) is split into the three parts `D`, `M`, `S`, each parsed as a
float — and converts it to `D + M/60 + S/3600` degrees, where the `M` and `S`
contributions are added unsigned, so only the degree part `D` carries a sign.
The remaining batch elements are converted the same way and appended. -/
theorem claim_C8_parseDec_dotSeparators (a b c : Tok) (vs : List PyVal) (d m sec : ℚ)
    (ha1 : '.' ∉ a) (ha2 : ':' ∉ a) (hb1 : '.' ∉ b) (hb2 : ':' ∉ b) (hc : ':' ∉ c)
    (hd : parseFloat a = some d) (hm : parseFloat b = some m)
    (hs : parseFloat c = some sec) :
    Dec2Angle (PyVal.str (a ++ '.' :: (b ++ '.' :: c)) :: vs) =
      (optMap (fun v =>
        match v with
        | PyVal.str t => decSexToDeg t
        | PyVal.num _ => none) vs).map
        (fun rest => (d + m / 60 + sec / 3600) :: rest) := by
  have hfirst : decSexToDeg (a ++ '.' :: (b ++ '.' :: c)) =
      some (d + m / 60 + sec / 3600) :=
    decSexToDeg_decomp ha1 ha2 hb1 hb2 hc hd hm hs
  simp only [Dec2Angle]
  rw [optMap]
  cases hvs : optMap (fun v =>
      match v with
      | PyVal.str t => decSexToDeg t
      | PyVal.num _ => none) vs <;>
    simp [hfirst, hvs]

/-- Witness for C8: the batch containing the single string `12.30.00`
converts to `12 + 30/60 + 0/3600 = 12.5` degrees. -/
theorem claim_C8_parseDec_dotSeparators_witness :
    Dec2Angle [PyVal.str (['1', '2'] ++ '.' :: (['3', '0'] ++ '.' :: ['0', '0']))] =
      some [25 / 2] := by
  have hd : parseFloat ['1', '2'] = some 12 := by
    rw [parseFloat, show parseFloatSyn ['1', '2'] = some ⟨false, 12, 0, 0⟩ from by decide]
    simp [floatLitVal]
  have hm : parseFloat ['3', '0'] = some 30 := by
    rw [parseFloat, show parseFloatSyn ['3', '0'] = some ⟨false, 30, 0, 0⟩ from by decide]
    simp [floatLitVal]
  have hs : parseFloat ['0', '0'] = some 0 := by
    rw [parseFloat, show parseFloatSyn ['0', '0'] = some ⟨false, 0, 0, 0⟩ from by decide]
    simp [floatLitVal]
  rw [claim_C8_parseDec_dotSeparators ['1', '2'] ['3', '0'] ['0', '0'] [] 12 30 0
    (by decide) (by decide) (by decide) (by decide) (by decide) hd hm hs]
  rw [optMap]
  norm_num

/-- On an all-string batch the first conversion pass never decreases the
running maximum. -/
theorem foldl_specMaxLenStep_le (xs : List SpecRaw)
    (hstr : ∀ x ∈ xs, ∃ s, x = SpecRaw.str s) (m : Nat) :
    m ≤ xs.foldl specMaxLenStep m := by
  induction xs generalizing m with
  | nil => simp
  | cons x xs ih =>
    obtain ⟨s, rfl⟩ := hstr x (by simp)
    have hstep : m ≤ specMaxLenStep m (SpecRaw.str s) := by
      rw [specMaxLenStep]
      cases parseSpecEntry s with
      | none => simp
      | some es =>
        by_cases hlen : es.length > m <;> simp [hlen]
        omega
    calc m ≤ specMaxLenStep m (SpecRaw.str s) := hstep
    _ ≤ _ := by
      rw [List.foldl_cons]
      exact ih (fun x hx => hstr x (by simp [hx])) _

/-- On an all-string batch every successfully parsed cell's length bounds the
first pass's result. -/
theorem length_le_foldl_specMaxLenStep (xs : List SpecRaw)
    (hstr : ∀ x ∈ xs, ∃ s, x = SpecRaw.str s) (s : Tok) (es : List ℚ)
    (hmem : SpecRaw.str s ∈ xs) (hp : parseSpecEntry s = some es) (m : Nat) :
    es.length ≤ xs.foldl specMaxLenStep m := by
  induction xs generalizing m with
  | nil => cases hmem
  | cons x xs ih =>
    have hxs : ∀ x ∈ xs, ∃ t, x = SpecRaw.str t := fun x hx => hstr x (by simp [hx])
    rw [List.foldl_cons]
    rcases List.mem_cons.mp hmem with hx | hx
    · subst hx
      have h1 : es.length ≤ specMaxLenStep m (SpecRaw.str s) := by
        rw [specMaxLenStep, hp]
        by_cases hlen : es.length > m <;> simp [hlen]
        omega
      exact le_trans h1 (foldl_specMaxLenStep_le xs hxs _)
    · exact ih hxs hx _

/-- On a nonempty all-float batch the first pass returns 1 whatever the
accumulator, because a float cell assigns `maxLen = 1` outright. -/
theorem foldl_specMaxLenStep_flt (xs : List SpecRaw)
    (hflt : ∀ x ∈ xs, ∃ q, x = SpecRaw.flt q) (hne : xs ≠ []) (m : Nat) :
    xs.foldl specMaxLenStep m = 1 := by
  induction xs generalizing m with
  | nil => exact absurd rfl hne
  | cons x xs ih =>
    obtain ⟨q, rfl⟩ := hflt x (by simp)
    rw [List.foldl_cons]
    cases xs with
    | nil => rfl
    | cons y ys =>
      exact ih (fun x hx => hflt x (by simp [hx])) (by simp) _

/-- C2 (confirmed): after the SpectralIndex conversion of a homogeneous batch
(the column delivered by a well-formed file is all-float or all-string), every
produced row has length exactly the catalog-wide maximum count of the first
pass; a parsed string cell is its coefficient list zero-padded on the right to
that maximum (its own length never exceeding it), and a float cell is its
one-element list zero-padded likewise. -/
theorem claim_C2_spectralIndex_padding (xs : List SpecRaw)
    (hhom : (∀ x ∈ xs, ∃ q, x = SpecRaw.flt q) ∨ (∀ x ∈ xs, ∃ s, x = SpecRaw.str s)) :
    (∀ out ∈ specConvert xs, out.length = specMaxLen xs) ∧
    (∀ (i : Nat) (s : Tok) (es : List ℚ), xs[i]? = some (SpecRaw.str s) → parseSpecEntry s = some es →
      es.length ≤ specMaxLen xs ∧
      (specConvert xs)[i]? = some (es ++ List.replicate (specMaxLen xs - es.length) 0)) ∧
    (∀ (i : Nat) (q : ℚ), xs[i]? = some (SpecRaw.flt q) →
      (specConvert xs)[i]? = some (q :: List.replicate (specMaxLen xs - 1) 0)) := by
  have hbound : ∀ s es, SpecRaw.str s ∈ xs → parseSpecEntry s = some es →
      es.length ≤ specMaxLen xs := by
    intro s es hmem hp
    rcases hhom with hflt | hstr
    · obtain ⟨q, hq⟩ := hflt _ hmem
      cases hq
    · exact length_le_foldl_specMaxLenStep xs hstr s es hmem hp 0
  refine ⟨?_, ?_, ?_⟩
  · intro out hout
    obtain ⟨x, hx, hfx⟩ := List.mem_map.mp hout
    cases x with
    | flt q =>
      have hflt : ∀ x ∈ xs, ∃ p, x = SpecRaw.flt p := by
        rcases hhom with hflt | hstr
        · exact hflt
        · obtain ⟨s, hs⟩ := hstr _ hx
          cases hs
      have hlen : specMaxLen xs = 1 :=
        foldl_specMaxLenStep_flt xs hflt (by rintro rfl; cases hx) 0
      subst hfx
      simp [padZeros, hlen]
    | str s =>
      subst hfx
      simp only []
      cases hp : parseSpecEntry s with
      | none => simp [List.length_replicate]
      | some es =>
        have := hbound s es hx hp
        simp [padZeros]
        omega
  · intro i s es hget hp
    refine ⟨hbound s es (List.mem_iff_getElem?.mpr ⟨i, hget⟩) hp, ?_⟩
    rw [specConvert, List.getElem?_map, hget]
    simp [hp, padZeros]
  · intro i q hget
    rw [specConvert, List.getElem?_map, hget]
    simp [padZeros]

/-- Witness for C2 at the all-string batch whose cells are `1;2` and `3`:
the first pass's maximum is 2, the second row is padded to `[3, 0]`. -/
theorem claim_C2_spectralIndex_padding_witness :
    (∀ x ∈ [SpecRaw.str ['1', ';', '2'], SpecRaw.str ['3']], ∃ s, x = SpecRaw.str s) ∧
    (∀ out ∈ specConvert [SpecRaw.str ['1', ';', '2'], SpecRaw.str ['3']],
      out.length = specMaxLen [SpecRaw.str ['1', ';', '2'], SpecRaw.str ['3']]) := by
  have hh : ∀ x ∈ [SpecRaw.str ['1', ';', '2'], SpecRaw.str ['3']],
      ∃ s, x = SpecRaw.str s := by
    intro x hx
    rcases List.mem_cons.mp hx with h | h
    · exact ⟨_, h⟩
    · rcases List.mem_cons.mp h with h2 | h2
      · exact ⟨_, h2⟩
      · cases h2
  exact ⟨hh,
    (claim_C2_spectralIndex_padding [SpecRaw.str ['1', ';', '2'], SpecRaw.str ['3']]
      (Or.inr hh)).1⟩

/-- Structural unfolding of `dupIndices` on a cons cell. -/
theorem dupIndices_cons [DecidableEq K] (x : K) (xs : List K) (v : K) :
    dupIndices (x :: xs) v =
      (if x = v then [0] else []) ++ (dupIndices xs v).map (· + 1) := by
  unfold dupIndices
  rw [List.length_cons, List.range_succ_eq_map, List.filter_cons, List.filter_map]
  by_cases hx : x = v
  · subst hx
    simp [Function.comp_def, Nat.succ_eq_add_one]
  · simp [hx, Function.comp_def, Nat.succ_eq_add_one]

/-- The occurrence-index list has as many entries as the value has
occurrences. -/
theorem length_dupIndices [DecidableEq K] (vals : List K) (v : K) :
    (dupIndices vals v).length = countOcc v vals := by
  induction vals with
  | nil => rfl
  | cons x xs ih =>
    rw [dupIndices_cons]
    by_cases hx : x = v <;> simp [hx, countOcc, List.filter_cons, ih]

/-- The k-th entry of `dupIndices vals v` is exactly the index of the k-th
occurrence of `v` (the unique index `i` holding `v` with `k` earlier
occurrences). -/
theorem getElem?_dupIndices [DecidableEq K] (vals : List K) (v : K) :
    ∀ k i : Nat, ((dupIndices vals v)[k]? = some i ↔
      vals[i]? = some v ∧ countOcc v (vals.take i) = k) := by
  induction vals with
  | nil =>
    intro k i
    simp [dupIndices]
  | cons x xs ih =>
    intro k i
    rw [dupIndices_cons]
    by_cases hx : x = v
    · subst hx
      cases k with
      | zero =>
        cases i with
        | zero => simp [countOcc]
        | succ j => simp [countOcc, List.filter_cons]
      | succ k =>
        cases i with
        | zero => simp [countOcc, List.getElem?_map]
        | succ j => simp [countOcc, List.filter_cons, List.getElem?_map, ih]
    · cases i with
      | zero => simp [hx, Ne.symm hx, List.getElem?_map]
      | succ j =>
        simp [hx, Ne.symm hx, countOcc, List.filter_cons, List.getElem?_map, ih]

/-- Membership in the occurrence-index list. -/
theorem mem_dupIndices [DecidableEq K] (vals : List K) (v : K) (i : Nat) :
    i ∈ dupIndices vals v ↔ vals[i]? = some v := by
  rw [List.mem_iff_getElem?]
  constructor
  · rintro ⟨k, hk⟩
    exact ((getElem?_dupIndices vals v k i).mp hk).1
  · intro h
    exact ⟨countOcc v (vals.take i), (getElem?_dupIndices vals v _ i).mpr ⟨h, rfl⟩⟩

/-- The head of a nonempty list through the optional indexer. -/
theorem headI_getElem? [Inhabited α] {l : List α} (h : l ≠ []) :
    l[0]? = some l.headI := by
  cases l with
  | nil => exact absurd rfl h
  | cons x xs => simp [List.headI]

/-- A list with two distinct members has length at least two. -/
theorem one_lt_length_of_two_mem {l : List α} {a b : α} (ha : a ∈ l) (hb : b ∈ l)
    (hab : a ≠ b) : 1 < l.length := by
  match l with
  | [] => cases ha
  | [x] =>
    simp only [List.mem_singleton] at ha hb
    exact absurd (ha.trans hb.symm) hab
  | x :: y :: rest => simp [List.length]

/-- A positive occurrence count is exactly membership. -/
theorem countOcc_pos_iff [DecidableEq K] (v : K) (l : List K) :
    0 < countOcc v l ↔ v ∈ l := by
  induction l with
  | nil => simp [countOcc]
  | cons x xs ih =>
    by_cases hx : x = v
    · subst hx
      simp [countOcc, List.filter_cons]
    · have hstep : countOcc v (x :: xs) = countOcc v xs := by
        simp [countOcc, List.filter_cons, hx]
      rw [hstep, ih, List.mem_cons]
      constructor
      · exact Or.inr
      · rintro (h | h)
        · exact absurd h.symm hx
        · exact h

/-- Occurrence counting in a prefix matches the optional-indexer view. -/
theorem count_take_pos_iff [DecidableEq K] (vals : List K) (v : K) (i : Nat) :
    0 < countOcc v (vals.take i) ↔ ∃ j < i, vals[j]? = some v := by
  rw [countOcc_pos_iff, List.mem_iff_getElem?]
  constructor
  · rintro ⟨j, hj⟩
    rw [List.getElem?_take] at hj
    by_cases hji : j < i
    · rw [if_pos hji] at hj
      exact ⟨j, hji, hj⟩
    · rw [if_neg hji] at hj
      cases hj
  · rintro ⟨j, hji, hj⟩
    exact ⟨j, by rw [List.getElem?_take, if_pos hji]; exact hj⟩

/-- A prefix with no occurrence of the value, through the optional indexer. -/
theorem count_take_eq_zero_iff [DecidableEq K] (vals : List K) (v : K) (i : Nat) :
    countOcc v (vals.take i) = 0 ↔ ∀ j < i, vals[j]? ≠ some v := by
  rw [← not_iff_not, ← ne_eq, ← Nat.pos_iff_ne_zero, count_take_pos_iff]
  push_neg
  simp

/-- Membership accumulated by the removal loop of `concatenate`: an index is
collected exactly when some visited key is duplicated and the index is in the
key's removal slice. -/
theorem mem_foldl_toRemoveStep [DecidableEq K] (keep : Keep) (vals : List K)
    (l : List K) (acc : List Nat) (i : Nat) :
    (i ∈ l.foldl (fun acc v =>
      if (dupIndices vals v).length > 1 then acc ++ removeSlice keep vals v
      else acc) acc) ↔
    (i ∈ acc ∨ ∃ v ∈ l, (dupIndices vals v).length > 1 ∧
      i ∈ removeSlice keep vals v) := by
  induction l generalizing acc with
  | nil => simp
  | cons w l ih =>
    rw [List.foldl_cons, ih]
    have hstep : (i ∈ (if (dupIndices vals w).length > 1 then
        acc ++ removeSlice keep vals w else acc)) ↔
        (i ∈ acc ∨ ((dupIndices vals w).length > 1 ∧
          i ∈ removeSlice keep vals w)) := by
      by_cases hgate : (dupIndices vals w).length > 1 <;> simp [hgate]
    rw [hstep]
    constructor
    · rintro ((h | h) | ⟨v, hv, h⟩)
      · exact Or.inl h
      · exact Or.inr ⟨w, by simp, h⟩
      · exact Or.inr ⟨v, by simp [hv], h⟩
    · rintro (h | ⟨v, hv, h⟩)
      · exact Or.inl (Or.inl h)
      · rcases List.mem_cons.mp hv with rfl | hv
        · exact Or.inl (Or.inr h)
        · exact Or.inr ⟨v, hv, h⟩

/-- Collected removal indices of the whole loop. -/
theorem mem_toRemove [DecidableEq K] (keep : Keep) (vals : List K) (i : Nat) :
    i ∈ toRemove keep vals ↔
      ∃ v ∈ vals, (dupIndices vals v).length > 1 ∧
        i ∈ removeSlice keep vals v := by
  rw [toRemove, mem_foldl_toRemoveStep]
  simp

/-- With `keep = from1` an index is marked for removal exactly when an earlier
index holds the same key. -/
theorem mem_toRemove_from1 [DecidableEq K] (vals : List K) (i : Nat) :
    i ∈ toRemove Keep.from1 vals ↔
      ∃ v, vals[i]? = some v ∧ ∃ j < i, vals[j]? = some v := by
  rw [mem_toRemove]
  simp only [removeSlice]
  constructor
  · rintro ⟨v, hv, hgate, hmem⟩
    rw [← List.drop_one, List.mem_iff_getElem?] at hmem
    obtain ⟨k, hk⟩ := hmem
    rw [List.getElem?_drop] at hk
    obtain ⟨hvi, hcount⟩ := (getElem?_dupIndices vals v _ i).mp hk
    refine ⟨v, hvi, ?_⟩
    rw [← count_take_pos_iff]
    omega
  · rintro ⟨v, hvi, j, hj, hvj⟩
    refine ⟨v, List.mem_iff_getElem?.mpr ⟨i, hvi⟩, ?_, ?_⟩
    · exact one_lt_length_of_two_mem ((mem_dupIndices vals v j).mpr hvj)
        ((mem_dupIndices vals v i).mpr hvi) (Nat.ne_of_lt hj)
    · have hpos : 0 < countOcc v (vals.take i) :=
        (count_take_pos_iff _ _ _).mpr ⟨j, hj, hvj⟩
      rw [← List.drop_one, List.mem_iff_getElem?]
      refine ⟨countOcc v (vals.take i) - 1, ?_⟩
      rw [List.getElem?_drop, getElem?_dupIndices]
      exact ⟨hvi, by omega⟩

/-- With `keep = from2` an index is marked for removal exactly when it is the
first occurrence of a key that occurs elsewhere as well. -/
theorem mem_toRemove_from2 [DecidableEq K] (vals : List K) (i : Nat) :
    i ∈ toRemove Keep.from2 vals ↔
      ∃ v, vals[i]? = some v ∧ (∃ j, j ≠ i ∧ vals[j]? = some v) ∧
        ∀ j < i, vals[j]? ≠ some v := by
  rw [mem_toRemove]
  simp only [removeSlice, List.mem_singleton]
  constructor
  · rintro ⟨v, hv, hgate, rfl⟩
    have hne : dupIndices vals v ≠ [] := by
      intro h0
      rw [h0] at hgate
      simp at hgate
    obtain ⟨hvi, hcount⟩ := (getElem?_dupIndices vals v 0 _).mp (headI_getElem? hne)
    have h2 := List.getElem?_eq_getElem hgate
    obtain ⟨hvi2, hcount2⟩ := (getElem?_dupIndices vals v 1 _).mp h2
    refine ⟨v, hvi, ⟨(dupIndices vals v)[1], ?_, hvi2⟩, ?_⟩
    · intro he
      rw [he] at hcount2
      omega
    · exact (count_take_eq_zero_iff _ _ _).mp hcount
  · rintro ⟨v, hvi, ⟨j, hji, hvj⟩, hfirst⟩
    have hcount0 : countOcc v (vals.take i) = 0 :=
      (count_take_eq_zero_iff _ _ _).mpr hfirst
    have hi : (dupIndices vals v)[0]? = some i :=
      (getElem?_dupIndices vals v 0 i).mpr ⟨hvi, hcount0⟩
    have hne : dupIndices vals v ≠ [] := by
      intro h0
      rw [h0] at hi
      cases hi
    refine ⟨v, List.mem_iff_getElem?.mpr ⟨i, hvi⟩, ?_, ?_⟩
    · exact one_lt_length_of_two_mem ((mem_dupIndices vals v j).mpr hvj)
        ((mem_dupIndices vals v i).mpr hvi) hji
    · have hh := headI_getElem? hne
      rw [hi] at hh
      exact (Option.some.injEq _ _).mp hh

/-- C5 (confirmed): conflict resolution of the merge.  With `keep = all` no
row is removed.  With `keep = from1` an index is marked for removal exactly
when an earlier row carries the same duplicate key, so precisely the first
occurrence of every key survives.  With `keep = from2` an index is marked
exactly when it is the first occurrence of a key shared with some other row,
so precisely the first occurrence of every duplicated key is dropped and all
later occurrences survive, whatever the group size.  For `from1`/`from2` the
surviving rows are those whose indices are unmarked, in order. -/
theorem claim_C5_conflictResolution [DecidableEq K] (rows : List (K × α)) :
    (resolveConflicts Keep.all rows = rows) ∧
    (∀ i : Nat, i ∈ toRemove Keep.from1 (rows.map Prod.fst) ↔
      ∃ v, (rows.map Prod.fst)[i]? = some v ∧
        ∃ j < i, (rows.map Prod.fst)[j]? = some v) ∧
    (∀ i : Nat, i ∈ toRemove Keep.from2 (rows.map Prod.fst) ↔
      ∃ v, (rows.map Prod.fst)[i]? = some v ∧
        (∃ j, j ≠ i ∧ (rows.map Prod.fst)[j]? = some v) ∧
        ∀ j < i, (rows.map Prod.fst)[j]? ≠ some v) ∧
    (∀ keep : Keep, keep ≠ Keep.all →
      resolveConflicts keep rows =
        removeRows rows (toRemove keep (rows.map Prod.fst))) := by
  refine ⟨rfl, fun i => mem_toRemove_from1 _ i, fun i => mem_toRemove_from2 _ i, ?_⟩
  intro keep hk
  cases keep with
  | all => exact absurd rfl hk
  | from1 => rfl
  | from2 => rfl

/-- Witness for C5 on the key column `[5, 7, 5]`: `keep = all` removes
nothing, `from1` marks index 2 (the later copy of key 5), `from2` marks
index 0 (the first copy of key 5). -/
theorem claim_C5_conflictResolution_witness :
    (resolveConflicts Keep.all [((5 : Nat), (0 : Nat)), (7, 1), (5, 2)] =
      [(5, 0), (7, 1), (5, 2)]) ∧
    (2 ∈ toRemove Keep.from1 ([((5 : Nat), (0 : Nat)), (7, 1), (5, 2)].map Prod.fst)) ∧
    (0 ∈ toRemove Keep.from2 ([((5 : Nat), (0 : Nat)), (7, 1), (5, 2)].map Prod.fst)) := by
  refine ⟨(claim_C5_conflictResolution _).1, ?_, ?_⟩
  · exact ((claim_C5_conflictResolution [((5 : Nat), (0 : Nat)), (7, 1), (5, 2)]).2.1 2).mpr
      ⟨5, by decide, 0, by decide, by decide⟩
  · exact ((claim_C5_conflictResolution [((5 : Nat), (0 : Nat)), (7, 1), (5, 2)]).2.2.1 0).mpr
      ⟨5, by decide, ⟨2, by decide, by decide⟩, by decide⟩

/-- An index resolved by the optional indexer is in range. -/
theorem lt_of_getElem?_some {l : List α} {i : Nat} {v : α} (h : l[i]? = some v) :
    i < l.length := by
  by_contra hge
  rw [List.getElem?_eq_none (by omega)] at h
  cases h

/-- The first entry of a nonempty occurrence list: the index holding the value
with no earlier occurrence. -/
theorem dupIndices_first_spec [DecidableEq K] (vals : List K) (v : K)
    (h : 0 < (dupIndices vals v).length) :
    vals[(dupIndices vals v).headI]? = some v ∧
      countOcc v (vals.take (dupIndices vals v).headI) = 0 := by
  have hne : dupIndices vals v ≠ [] := by
    intro h0
    rw [h0] at h
    cases h
  exact (getElem?_dupIndices vals v 0 _).mp (headI_getElem? hne)

/-- The second entry of an occurrence list with at least two entries: the
index holding the value with exactly one earlier occurrence. -/
theorem dupIndices_second_spec [DecidableEq K] (vals : List K) (v : K)
    (h : 1 < (dupIndices vals v).length) :
    vals[(dupIndices vals v).tail.headI]? = some v ∧
      countOcc v (vals.take ((dupIndices vals v).tail.headI)) = 1 := by
  have htne : (dupIndices vals v).tail ≠ [] := by
    intro h0
    have hlt : (dupIndices vals v).tail.length = 0 := by rw [h0]; rfl
    rw [List.length_tail] at hlt
    omega
  have h0 := headI_getElem? htne
  rw [← List.drop_one, List.getElem?_drop] at h0
  exact (getElem?_dupIndices vals v 1 _).mp (by simpa using h0)

/-- A position whose snapshot name differs from the visited name is untouched
by one rename visit. -/
theorem renameStep_getElem_ne (names cur : List Tok) (d : Tok) (i : Nat) (v : Tok)
    (hiv : names[i]? = some v) (hvd : v ≠ d) :
    (renameStep names cur d)[i]? = cur[i]? := by
  rw [renameStep]
  by_cases hgate : (dupIndices names d).length > 1
  · rw [if_pos hgate]
    have h1 := dupIndices_first_spec names d (by omega)
    have h2 := dupIndices_second_spec names d hgate
    have hne1 : (dupIndices names d).headI ≠ i := by
      intro he
      rw [he, hiv] at h1
      exact hvd (Option.some.inj h1.1.symm).symm
    have hne2 : (dupIndices names d).tail.headI ≠ i := by
      intro he
      rw [he, hiv] at h2
      exact hvd (Option.some.inj h2.1.symm).symm
    rw [List.getElem?_set_ne hne2, List.getElem?_set_ne hne1]
  · rw [if_neg hgate]

/-- One rename visit keeps the table length. -/
theorem length_renameStep (names cur : List Tok) (v : Tok) :
    (renameStep names cur v).length = cur.length := by
  rw [renameStep]
  by_cases h : (dupIndices names v).length > 1 <;> simp [h]

/-- The rename fold keeps the table length. -/
theorem length_foldl_renameStep (names : List Tok) (ds : List Tok) (cur : List Tok) :
    (ds.foldl (renameStep names) cur).length = cur.length := by
  induction ds generalizing cur with
  | nil => rfl
  | cons d ds ih => rw [List.foldl_cons, ih, length_renameStep]

/-- Pointwise effect of the rename fold over distinct names: a position whose
snapshot name has been visited and is duplicated holds its rename target;
every other position keeps its current value, provided unvisited positions
still hold their snapshot names. -/
theorem renameFold_getElem (names : List Tok) (ds : List Tok) :
    ∀ cur : List Tok, ds.Nodup → cur.length = names.length →
      (∀ (i : Nat) (v : Tok), names[i]? = some v → v ∈ ds → cur[i]? = some v) →
      ∀ (i : Nat) (v : Tok), names[i]? = some v →
        (ds.foldl (renameStep names) cur)[i]? =
          if v ∈ ds ∧ 1 < countOcc v names then some (renameTarget names i v)
          else cur[i]? := by
  induction ds with
  | nil =>
    intro cur _ _ _ i v _
    simp
  | cons d ds ih =>
    intro cur hnd hlen horig i v hv
    rw [List.foldl_cons]
    have hnd' : ds.Nodup := (List.nodup_cons.mp hnd).2
    have hd_not : d ∉ ds := (List.nodup_cons.mp hnd).1
    have hlen' : (renameStep names cur d).length = names.length := by
      rw [length_renameStep]
      exact hlen
    have horig' : ∀ (i : Nat) (v : Tok), names[i]? = some v → v ∈ ds →
        (renameStep names cur d)[i]? = some v := by
      intro i v hiv hvds
      have hvd : v ≠ d := fun he => hd_not (he ▸ hvds)
      rw [renameStep_getElem_ne names cur d i v hiv hvd]
      exact horig i v hiv (by simp [hvds])
    have hIH := ih (renameStep names cur d) hnd' hlen' horig' i v hv
    rw [hIH]
    by_cases hvd : v = d
    · subst hvd
      rw [if_neg (fun hc => hd_not hc.1)]
      have hgateCnt : (dupIndices names v).length = countOcc v names :=
        length_dupIndices names v
      by_cases hcnt : 1 < countOcc v names
      · rw [if_pos ⟨by simp, hcnt⟩]
        have hgate : (dupIndices names v).length > 1 := by omega
        have h1 := dupIndices_first_spec names v (by omega)
        have h2 := dupIndices_second_spec names v hgate
        have hi_lt : i < cur.length := by
          rw [hlen]
          exact lt_of_getElem?_some hv
        have h1_lt : (dupIndices names v).headI < cur.length := by
          rw [hlen]
          exact lt_of_getElem?_some h1.1
        have h12 : (dupIndices names v).headI ≠ (dupIndices names v).tail.headI := by
          intro he
          rw [he] at h1
          omega
        rw [renameStep, if_pos hgate]
        rcases Nat.lt_trichotomy (countOcc v (names.take i)) 1 with hc | hc | hc
        · -- first occurrence: i is the head entry
          have hc0 : countOcc v (names.take i) = 0 := by omega
          have hieq : (dupIndices names v).headI = i := by
            have ha : (dupIndices names v)[0]? = some i :=
              (getElem?_dupIndices names v 0 i).mpr ⟨hv, hc0⟩
            have hb : (dupIndices names v)[0]? = some (dupIndices names v).headI :=
              headI_getElem? (by intro h0; rw [h0] at hgate; simp at hgate)
            rw [ha] at hb
            exact ((Option.some.injEq _ _).mp hb).symm
          rw [← hieq, List.getElem?_set_ne (Ne.symm h12)]
          rw [List.getElem?_set_self h1_lt, renameTarget, if_pos hcnt, hieq, hc0]
          simp
        · -- second occurrence: i is the second entry
          have hieq : (dupIndices names v).tail.headI = i := by
            have ha : (dupIndices names v)[1]? = some i :=
              (getElem?_dupIndices names v 1 i).mpr ⟨hv, hc⟩
            have hb : (dupIndices names v)[1]? = some ((dupIndices names v).tail.headI) := by
              have htne : (dupIndices names v).tail ≠ [] := by
                intro h0
                have hlt : (dupIndices names v).tail.length = 0 := by rw [h0]; rfl
                rw [List.length_tail] at hlt
                omega
              have hh := headI_getElem? htne
              rw [← List.drop_one, List.getElem?_drop] at hh
              simpa using hh
            rw [ha] at hb
            exact ((Option.some.injEq _ _).mp hb).symm
          rw [← hieq, List.getElem?_set_self]
          · rw [renameTarget, if_pos hcnt, hieq, hc]
            simp
          · rw [List.length_set, hieq]
            exact hi_lt
        · -- later occurrence: untouched, still the snapshot name
          have hne1 : (dupIndices names v).headI ≠ i := by
            intro he
            rw [he] at h1
            omega
          have hne2 : (dupIndices names v).tail.headI ≠ i := by
            intro he
            rw [he] at h2
            omega
          rw [List.getElem?_set_ne hne2, List.getElem?_set_ne hne1]
          rw [horig i v hv (by simp), renameTarget, if_pos hcnt]
          rw [if_neg (by omega), if_neg (by omega)]
      · rw [if_neg (by tauto)]
        have hgate : ¬ (dupIndices names v).length > 1 := by omega
        rw [renameStep, if_neg hgate]
    · have hstep := renameStep_getElem_ne names cur d i v hv hvd
      by_cases hds : v ∈ ds
      · by_cases hcnt : 1 < countOcc v names
        · rw [if_pos ⟨hds, hcnt⟩, if_pos ⟨by simp [hds], hcnt⟩]
        · rw [if_neg (by tauto), if_neg (by tauto), hstep]
      · rw [if_neg (by tauto), if_neg (by simp [hds, hvd]), hstep]

/-- C6 (confirmed): the rename pass follows every merge, whatever the keep
mode: writing `ns` for the Name column left by conflict resolution, the merge
pipeline produces exactly `renamePass ns`, and position `i` of the result
holds `renameTarget ns i v`: when the name `v` still occurs more than once,
its first occurrence becomes `v_1` and its second `v_2`, while occurrences
beyond the second and unique names are left unchanged.  In particular a
`keep = all` merge of two catalogs both containing `X` yields `X_1` and
`X_2`, never a bare duplicate `X`. -/
theorem claim_C6_renameAfterMerge (keep : Keep) (names1 names2 : List Tok) :
    ∀ ns : List Tok,
      ns = (resolveConflicts keep ((names1 ++ names2).map fun n => (n, ()))).map
        Prod.fst →
      (mergeNamesByName keep names1 names2).length = ns.length ∧
      ∀ (i : Nat) (v : Tok), ns[i]? = some v →
        (mergeNamesByName keep names1 names2)[i]? = some (renameTarget ns i v) := by
  intro ns hns
  have hmn : mergeNamesByName keep names1 names2 = renamePass ns := by
    rw [mergeNamesByName, hns]
  constructor
  · rw [hmn, renamePass, length_foldl_renameStep]
  · intro i v hv
    rw [hmn, renamePass,
      renameFold_getElem ns ns.dedup ns (List.nodup_dedup _) rfl (fun _ _ h _ => h) i v hv]
    by_cases hcnt : 1 < countOcc v ns
    · rw [if_pos ⟨List.mem_dedup.mpr (List.mem_iff_getElem?.mpr ⟨i, hv⟩), hcnt⟩]
    · rw [if_neg (fun hc => hcnt hc.2), hv, renameTarget, if_neg hcnt]

/-- Witness for C6: merging two one-row catalogs both named `X` with
`keep = all` yields `X_1` and `X_2`. -/
theorem claim_C6_renameAfterMerge_witness :
    mergeNamesByName Keep.all [['X']] [['X']] = [['X', '_', '1'], ['X', '_', '2']] ∧
    (mergeNamesByName Keep.all [['X']] [['X']]).length =
      ((resolveConflicts Keep.all ((([['X']] : List Tok) ++ [['X']]).map
        fun n => (n, ()))).map Prod.fst).length := by
  exact ⟨by decide,
    (claim_C6_renameAfterMerge Keep.all [['X']] [['X']] _ rfl).1⟩

/-- The nearest-neighbour scan never returns a separation worse than the
running best nor than any scanned element. -/
theorem nearestAux_min (d : Pos → Pos → ℚ) (p : Pos) :
    ∀ (cs : List Pos) (i : Nat) (best : Nat × ℚ),
      (nearestAux d p cs i best).2 ≤ best.2 ∧
      ∀ q ∈ cs, (nearestAux d p cs i best).2 ≤ d p q := by
  intro cs
  induction cs with
  | nil =>
    intro i best
    exact ⟨le_refl _, by simp⟩
  | cons c cs ih =>
    intro i best
    rw [nearestAux]
    by_cases hlt : d p c < best.2
    · rw [if_pos hlt]
      obtain ⟨h1, h2⟩ := ih (i + 1) (i, d p c)
      refine ⟨le_trans h1 (le_of_lt hlt), ?_⟩
      intro q hq
      rcases List.mem_cons.mp hq with rfl | hq
      · exact h1
      · exact h2 q hq
    · rw [if_neg hlt]
      obtain ⟨h1, h2⟩ := ih (i + 1) best
      refine ⟨h1, ?_⟩
      intro q hq
      rcases List.mem_cons.mp hq with rfl | hq
      · exact le_trans h1 (le_of_not_lt hlt)
      · exact h2 q hq

/-- The scan result is attained at its returned index, provided the scanned
tail sits at offset `i` of the catalog and the running best is attained. -/
theorem nearestAux_attained (d : Pos → Pos → ℚ) (p : Pos) (cat : List Pos) :
    ∀ (cs : List Pos) (i : Nat) (best : Nat × ℚ),
      (∀ k : Nat, cs[k]? = cat[i + k]?) →
      (∃ q, cat[best.1]? = some q ∧ d p q = best.2) →
      ∃ q, cat[(nearestAux d p cs i best).1]? = some q ∧
        d p q = (nearestAux d p cs i best).2 := by
  intro cs
  induction cs with
  | nil =>
    intro i best _ hbest
    exact hbest
  | cons c cs ih =>
    intro i best hk hbest
    rw [nearestAux]
    apply ih (i + 1)
    · intro k
      have hk1 := hk (k + 1)
      rw [List.getElem?_cons_succ] at hk1
      rw [show i + 1 + k = i + (k + 1) from by omega]
      exact hk1
    · by_cases hlt : d p c < best.2
      · rw [if_pos hlt]
        refine ⟨c, ?_, rfl⟩
        have hk0 := hk 0
        rw [List.getElem?_cons_zero] at hk0
        rw [Nat.add_zero] at hk0
        exact hk0.symm
      · rw [if_neg hlt]
        exact hbest

/-- On a nonempty catalog, `nearestIdx` returns an attained, minimal
separation: it really is the nearest neighbour. -/
theorem nearestIdx_spec (d : Pos → Pos → ℚ) (p : Pos) (cat : List Pos)
    (hne : cat ≠ []) :
    (∃ q, cat[(nearestIdx d p cat).1]? = some q ∧
      d p q = (nearestIdx d p cat).2) ∧
    ∀ q ∈ cat, (nearestIdx d p cat).2 ≤ d p q := by
  match cat with
  | [] => exact absurd rfl hne
  | c :: cs =>
    rw [nearestIdx]
    constructor
    · apply nearestAux_attained d p (c :: cs) cs 1 (0, d p c)
      · intro k
        rw [show 1 + k = k + 1 from by omega, List.getElem?_cons_succ]
      · exact ⟨c, by rw [List.getElem?_cons_zero], rfl⟩
    · intro q hq
      obtain ⟨h1, h2⟩ := nearestAux_min d p cs 1 (0, d p c)
      rcases List.mem_cons.mp hq with rfl | hq
      · exact h1
      · exact h2 q hq

/-- One assignment step keeps the id column's length. -/
theorem length_matchAssign (d : Pos → Pos → ℚ) (cat1 cat2 : List Pos)
    (radius : ℚ) (col : List Nat) (i : Nat) :
    (matchAssign d cat1 cat2 radius col i).length = col.length := by
  rw [matchAssign]
  cases (matchToCatalogSky d cat1 cat2)[i]? with
  | none => rfl
  | some jd =>
    by_cases h : jd.2 ≤ radius <;> simp [h]

/-- The assignment fold keeps the id column's length. -/
theorem length_foldl_matchAssign (d : Pos → Pos → ℚ) (cat1 cat2 : List Pos)
    (radius : ℚ) (l : List Nat) (col : List Nat) :
    (l.foldl (matchAssign d cat1 cat2 radius) col).length = col.length := by
  induction l generalizing col with
  | nil => rfl
  | cons i l ih => rw [List.foldl_cons, ih, length_matchAssign]

/-- A catalog-2 slot not claimed by the visited catalog-1 row is unchanged. -/
theorem matchAssign_getElem_ne (d : Pos → Pos → ℚ) (cat1 cat2 : List Pos)
    (radius : ℚ) (col : List Nat) (i j : Nat)
    (hno : ¬ withinMatch d cat1 cat2 radius i j) :
    (matchAssign d cat1 cat2 radius col i)[j]? = col[j]? := by
  cases hp : (matchToCatalogSky d cat1 cat2)[i]? with
  | none => rw [matchAssign, hp]
  | some jd =>
    rw [matchAssign, hp]
    show (if jd.2 ≤ radius then col.set jd.1 i else col)[j]? = col[j]?
    by_cases h : jd.2 ≤ radius
    · rw [if_pos h]
      have hj : jd.1 ≠ j := by
        intro he
        exact hno ⟨jd.2, by rw [hp, ← he], h⟩
      rw [List.getElem?_set_ne hj]
    · rw [if_neg h]

/-- The visited catalog-1 row writes its id into its claimed slot. -/
theorem matchAssign_write (d : Pos → Pos → ℚ) (cat1 cat2 : List Pos)
    (radius : ℚ) (col : List Nat) (i j : Nat) (dd : ℚ)
    (hp : (matchToCatalogSky d cat1 cat2)[i]? = some (j, dd))
    (hdd : dd ≤ radius) :
    matchAssign d cat1 cat2 radius col i = col.set j i := by
  rw [matchAssign, hp]
  show (if (j, dd).2 ≤ radius then col.set (j, dd).1 i else col) = col.set j i
  rw [if_pos hdd]

/-- A catalog-2 slot claimed by no visited catalog-1 row survives the fold. -/
theorem foldl_matchAssign_no_match (d : Pos → Pos → ℚ) (cat1 cat2 : List Pos)
    (radius : ℚ) (l : List Nat) (col : List Nat) (j : Nat)
    (hno : ∀ i ∈ l, ¬ withinMatch d cat1 cat2 radius i j) :
    (l.foldl (matchAssign d cat1 cat2 radius) col)[j]? = col[j]? := by
  induction l generalizing col with
  | nil => rfl
  | cons i l ih =>
    rw [List.foldl_cons, ih _ (fun k hk => hno k (by simp [hk])),
      matchAssign_getElem_ne _ _ _ _ _ _ _ (hno i (by simp))]

/-- C1 amended: the match ids that `concatenate` actually builds for
`matchBy = position`.  The nearest-neighbour query runs from catalog 1 into
catalog 2 (the reverse of the claimed direction): for every catalog-1 row the
nearest catalog-2 row is found (conjuncts 2 and 3: the separation is attained
and minimal); a catalog-2 row claimed by no catalog-1 row within the radius
keeps its unique id `len(cat1) + j` (conjunct 4); a catalog-2 row claimed by
at least one catalog-1 row carries the id of the last such catalog-1 row
(conjunct 5) — in particular two distinct catalog-1 rows may claim the same
catalog-2 row, and the later one wins. -/
theorem claim_C1_matchByPosition (d : Pos → Pos → ℚ) (cat1 cat2 : List Pos)
    (r : ℚ) :
    ((buildMatchCol2 d cat1 cat2 r).length = cat2.length) ∧
    (∀ (i : Nat) (p : Pos), cat1[i]? = some p →
      (matchToCatalogSky d cat1 cat2)[i]? = some (nearestIdx d p cat2)) ∧
    (∀ p : Pos, cat2 ≠ [] →
      (∃ q, cat2[(nearestIdx d p cat2).1]? = some q ∧
        d p q = (nearestIdx d p cat2).2) ∧
      ∀ q ∈ cat2, (nearestIdx d p cat2).2 ≤ d p q) ∧
    (∀ j : Nat, j < cat2.length →
      (∀ i : Nat, ¬ withinMatch d cat1 cat2 r i j) →
      (buildMatchCol2 d cat1 cat2 r)[j]? = some (cat1.length + j)) ∧
    (∀ i j : Nat, j < cat2.length → withinMatch d cat1 cat2 r i j →
      (∀ k : Nat, i < k → ¬ withinMatch d cat1 cat2 r k j) →
      (buildMatchCol2 d cat1 cat2 r)[j]? = some i) := by
  have hinit : ∀ j : Nat, j < cat2.length →
      (((List.range cat2.length).map fun j => cat1.length + j)[j]? =
        some (cat1.length + j)) := by
    intro j hj
    rw [List.getElem?_map, List.getElem?_range hj]
    rfl
  refine ⟨?_, ?_, ?_, ?_, ?_⟩
  · rw [buildMatchCol2, length_foldl_matchAssign, List.length_map,
      List.length_range]
  · intro i p hp
    rw [matchToCatalogSky, List.getElem?_map, hp]
    rfl
  · intro p hne
    exact nearestIdx_spec d p cat2 hne
  · intro j hj hno
    rw [buildMatchCol2, foldl_matchAssign_no_match _ _ _ _ _ _ _
      (fun i _ => hno i)]
    exact hinit j hj
  · intro i j hj hmatch hafter
    obtain ⟨dd, hpair, hdd⟩ := hmatch
    have hi1 : i < cat1.length := by
      have := lt_of_getElem?_some hpair
      rw [matchToCatalogSky, List.length_map] at this
      exact this
    have hsplit : List.range cat1.length =
        (List.range i ++ [i]) ++
          (List.range (cat1.length - (i + 1))).map ((i + 1) + ·) := by
      rw [show cat1.length = (i + 1) + (cat1.length - (i + 1)) from by omega,
        List.range_add]
      congr 1
      · rw [show i + 1 = Nat.succ i from rfl, List.range_succ]
      · rw [show (i + 1) + (cat1.length - (i + 1)) - (i + 1) =
          cat1.length - (i + 1) from by omega]
    rw [buildMatchCol2, hsplit, List.foldl_append, List.foldl_append]
    rw [foldl_matchAssign_no_match]
    · rw [List.foldl_cons, List.foldl_nil, matchAssign_write _ _ _ _ _ _ _ dd hpair hdd]
      rw [List.getElem?_set_self]
      rw [length_foldl_matchAssign, List.length_map, List.length_range]
      exact hj
    · intro k hk
      rw [List.mem_map] at hk
      obtain ⟨m, _, rfl⟩ := hk
      exact hafter _ (by omega)

/-- Counterexample for C1: with one catalog-1 point on the equator and two
catalog-2 points 0.1 and 0.2 degrees away (radius 0.5), the code gives the
second catalog-2 row the unique id 2 because it is nobody's nearest
neighbour, while the claimed direction (catalog 2 queries catalog 1) would
match both catalog-2 rows to catalog-1 row 0. -/
theorem claim_C1_counterexample :
    buildMatchCol2 eqSep [((0 : ℚ), (0 : ℚ))]
      [((1/10 : ℚ), (0 : ℚ)), ((1/5 : ℚ), (0 : ℚ))] (1/2) = [0, 2] ∧
    buildMatchCol2Spec eqSep [((0 : ℚ), (0 : ℚ))]
      [((1/10 : ℚ), (0 : ℚ)), ((1/5 : ℚ), (0 : ℚ))] (1/2) = [0, 0] ∧
    buildMatchCol2 eqSep [((0 : ℚ), (0 : ℚ))]
      [((1/10 : ℚ), (0 : ℚ)), ((1/5 : ℚ), (0 : ℚ))] (1/2) ≠
    buildMatchCol2Spec eqSep [((0 : ℚ), (0 : ℚ))]
      [((1/10 : ℚ), (0 : ℚ)), ((1/5 : ℚ), (0 : ℚ))] (1/2) := by
  have e1 : eqSep ((0 : ℚ), (0 : ℚ)) ((1/10 : ℚ), (0 : ℚ)) = 1/10 := by
    rw [eqSep]
    norm_num
  have e2 : eqSep ((0 : ℚ), (0 : ℚ)) ((1/5 : ℚ), (0 : ℚ)) = 1/5 := by
    rw [eqSep]
    norm_num
  have f1 : eqSep ((1/10 : ℚ), (0 : ℚ)) ((0 : ℚ), (0 : ℚ)) = 1/10 := by
    rw [eqSep]
    norm_num
  have f2 : eqSep ((1/5 : ℚ), (0 : ℚ)) ((0 : ℚ), (0 : ℚ)) = 1/5 := by
    rw [eqSep]
    norm_num
  have h1 : buildMatchCol2 eqSep [((0 : ℚ), (0 : ℚ))]
      [((1/10 : ℚ), (0 : ℚ)), ((1/5 : ℚ), (0 : ℚ))] (1/2) = [0, 2] := by
    norm_num [buildMatchCol2, matchAssign, matchToCatalogSky, nearestIdx,
      nearestAux, e1, e2, List.range_succ, -Prod.mk_zero_zero]
  have h2 : buildMatchCol2Spec eqSep [((0 : ℚ), (0 : ℚ))]
      [((1/10 : ℚ), (0 : ℚ)), ((1/5 : ℚ), (0 : ℚ))] (1/2) = [0, 0] := by
    norm_num [buildMatchCol2Spec, nearestIdx, nearestAux, f1, f2,
      -Prod.mk_zero_zero]
  refine ⟨h1, h2, ?_⟩
  rw [h1, h2]
  decide

/-- Witness for the amended C1 at the counterexample catalogs: catalog-2 row
0 carries catalog-1 row 0's id, catalog-2 row 1 keeps its unique id 1 + 1. -/
theorem claim_C1_matchByPosition_witness :
    (buildMatchCol2 eqSep [((0 : ℚ), (0 : ℚ))]
      [((1/10 : ℚ), (0 : ℚ)), ((1/5 : ℚ), (0 : ℚ))] (1/2))[0]? = some 0 ∧
    (buildMatchCol2 eqSep [((0 : ℚ), (0 : ℚ))]
      [((1/10 : ℚ), (0 : ℚ)), ((1/5 : ℚ), (0 : ℚ))] (1/2))[1]? = some (1 + 1) := by
  have e1 : eqSep ((0 : ℚ), (0 : ℚ)) ((1/10 : ℚ), (0 : ℚ)) = 1/10 := by
    rw [eqSep]
    norm_num
  have e2 : eqSep ((0 : ℚ), (0 : ℚ)) ((1/5 : ℚ), (0 : ℚ)) = 1/5 := by
    rw [eqSep]
    norm_num
  have hpair : (matchToCatalogSky eqSep [((0 : ℚ), (0 : ℚ))]
      [((1/10 : ℚ), (0 : ℚ)), ((1/5 : ℚ), (0 : ℚ))])[0]? = some (0, 1/10) := by
    norm_num [matchToCatalogSky, nearestIdx, nearestAux, e1, e2,
      -Prod.mk_zero_zero]
  constructor
  · refine (claim_C1_matchByPosition eqSep [((0 : ℚ), (0 : ℚ))]
      [((1/10 : ℚ), (0 : ℚ)), ((1/5 : ℚ), (0 : ℚ))] (1/2)).2.2.2.2 0 0
      (by norm_num) ⟨1/10, hpair, by norm_num⟩ ?_
    intro k hk hmk
    obtain ⟨dd, hp, _⟩ := hmk
    have hlt := lt_of_getElem?_some hp
    rw [matchToCatalogSky, List.length_map] at hlt
    simp at hlt
    omega
  · refine (claim_C1_matchByPosition eqSep [((0 : ℚ), (0 : ℚ))]
      [((1/10 : ℚ), (0 : ℚ)), ((1/5 : ℚ), (0 : ℚ))] (1/2)).2.2.2.1 1
      (by norm_num) ?_
    intro i hmi
    obtain ⟨dd, hp, hr⟩ := hmi
    have hlt := lt_of_getElem?_some hp
    rw [matchToCatalogSky, List.length_map] at hlt
    simp at hlt
    rw [hlt] at hp
    rw [hpair] at hp
    cases hp

/-- In a duplicate-free list the occurrence-index list of a present value is
exactly the singleton of its index. -/
theorem dupIndices_nodup_singleton [DecidableEq K] (l : List K) (hnd : l.Nodup)
    (j : Nat) (v : K) (hj : l[j]? = some v) :
    dupIndices l v = [j] := by
  have h0 : countOcc v (l.take j) = 0 := by
    rw [count_take_eq_zero_iff]
    intro k hk hkv
    have hkj : k = j := List.getElem?_inj (lt_of_getElem?_some hkv) hnd
      (show l[k]? = l[j]? from by rw [hkv, hj])
    omega
  have hget : (dupIndices l v)[0]? = some j :=
    (getElem?_dupIndices l v 0 j).mpr ⟨hj, h0⟩
  have hlen : (dupIndices l v).length = 1 := by
    have hpos : 0 < (dupIndices l v).length := lt_of_getElem?_some hget
    by_contra hne1
    have h2 : 1 < (dupIndices l v).length := by omega
    obtain ⟨hv1, hc1⟩ :=
      (getElem?_dupIndices l v 1 _).mp (List.getElem?_eq_getElem h2)
    have hpos1 : 0 < countOcc v (l.take ((dupIndices l v)[1])) := by omega
    obtain ⟨k, hk, hkv⟩ := (count_take_pos_iff _ _ _).mp hpos1
    have hkj : k = (dupIndices l v)[1] :=
      List.getElem?_inj (lt_of_getElem?_some hkv) hnd
        (show l[k]? = l[(dupIndices l v)[1]]? from by rw [hkv, hv1])
    omega
  match hd : dupIndices l v with
  | [] =>
    rw [hd] at hget
    cases hget
  | [x] =>
    rw [hd] at hget
    simp only [List.getElem?_cons_zero] at hget
    rw [(Option.some.injEq _ _).mp hget]
  | x :: y :: rest =>
    rw [hd] at hlen
    simp at hlen

/-- A pointwise-successful `optMap` succeeds and maps index-wise. -/
theorem optMap_eq_some_of_all (f : α → Option β) (l : List α)
    (h : ∀ x ∈ l, ∃ y, f x = some y) :
    ∃ ys, optMap f l = some ys ∧ ys.length = l.length ∧
      ∀ (i : Nat) (x : α), l[i]? = some x → ys[i]? = f x := by
  induction l with
  | nil =>
    refine ⟨[], rfl, rfl, ?_⟩
    intro i x hx
    cases hx
  | cons a l ih =>
    obtain ⟨y, hy⟩ := h a (by simp)
    obtain ⟨ys, hys, hlen, hpt⟩ := ih (fun x hx => h x (by simp [hx]))
    refine ⟨y :: ys, ?_, by simp [hlen], ?_⟩
    · rw [optMap, hy, hys]
      rfl
    · intro i x hx
      cases i with
      | zero =>
        rw [List.getElem?_cons_zero] at hx
        have hax : a = x := Option.some.inj hx
        subst hax
        rw [List.getElem?_cons_zero, hy]
      | succ k =>
        rw [List.getElem?_cons_succ] at hx
        rw [List.getElem?_cons_succ]
        exact hpt k x hx

/-- C7 amended: when both catalogs carry width-2 SpectralIndex rows (the
width the code fixes with `np.zeros((len, 2))`) and names are unique within
each catalog, the reattachment succeeds and every merged row's SpectralIndex
value is the catalog-2 row looked up by that row's Name when the Name occurs
in catalog 2, else the catalog-1 row looked up by Name — for the merged Name
column `names1 ++ names2` left by the stack, regardless of the matchBy
mode (the reattachment code is shared by both modes). -/
theorem claim_C7_spectralReattach (names1 names2 : List Tok)
    (sp1 sp2 : List (List ℚ))
    (hu1 : names1.Nodup) (hu2 : names2.Nodup)
    (hl1 : sp1.length = names1.length) (hl2 : sp2.length = names2.length)
    (hw1 : ∀ row ∈ sp1, row.length = 2) (hw2 : ∀ row ∈ sp2, row.length = 2) :
    ∃ sp, reattachSpectral (names1 ++ names2) names1 names2 sp1 sp2 = some sp ∧
      sp.length = names1.length + names2.length ∧
      ∀ (i : Nat) (name : Tok), (names1 ++ names2)[i]? = some name →
        (∀ j : Nat, name ∈ names2 → names2[j]? = some name → sp[i]? = sp2[j]?) ∧
        (∀ j : Nat, name ∉ names2 → names1[j]? = some name → sp[i]? = sp1[j]?) := by
  have hlookup2 : ∀ (name : Tok) (j : Nat), names2[j]? = some name →
      assignRow2 sp2 (dupIndices names2 name) = sp2[j]? ∧
      ∃ row, sp2[j]? = some row := by
    intro name j hj
    have hdup := dupIndices_nodup_singleton names2 hu2 j name hj
    have hjlt : j < sp2.length := by
      rw [hl2]
      exact lt_of_getElem?_some hj
    obtain ⟨row, hrow⟩ : ∃ row, sp2[j]? = some row :=
      ⟨sp2[j], List.getElem?_eq_getElem hjlt⟩
    have hw : row.length = 2 :=
      hw2 row (List.mem_iff_getElem?.mpr ⟨j, hrow⟩)
    match row, hw with
    | [a, b], _ =>
      refine ⟨?_, ⟨[a, b], hrow⟩⟩
      rw [hdup, assignRow2, hrow]
  have hlookup1 : ∀ (name : Tok) (j : Nat), names1[j]? = some name →
      assignRow2 sp1 (dupIndices names1 name) = sp1[j]? ∧
      ∃ row, sp1[j]? = some row := by
    intro name j hj
    have hdup := dupIndices_nodup_singleton names1 hu1 j name hj
    have hjlt : j < sp1.length := by
      rw [hl1]
      exact lt_of_getElem?_some hj
    obtain ⟨row, hrow⟩ : ∃ row, sp1[j]? = some row :=
      ⟨sp1[j], List.getElem?_eq_getElem hjlt⟩
    have hw : row.length = 2 :=
      hw1 row (List.mem_iff_getElem?.mpr ⟨j, hrow⟩)
    match row, hw with
    | [a, b], _ =>
      refine ⟨?_, ⟨[a, b], hrow⟩⟩
      rw [hdup, assignRow2, hrow]
  have hall : ∀ name ∈ names1 ++ names2, ∃ y,
      (if name ∈ names2 then assignRow2 sp2 (dupIndices names2 name)
       else assignRow2 sp1 (dupIndices names1 name)) = some y := by
    intro name hname
    by_cases h2 : name ∈ names2
    · obtain ⟨j, hj⟩ := List.mem_iff_getElem?.mp h2
      obtain ⟨heq, row, hrow⟩ := hlookup2 name j hj
      exact ⟨row, by rw [if_pos h2, heq, hrow]⟩
    · have h1 : name ∈ names1 := by
        rcases List.mem_append.mp hname with h | h
        · exact h
        · exact absurd h h2
      obtain ⟨j, hj⟩ := List.mem_iff_getElem?.mp h1
      obtain ⟨heq, row, hrow⟩ := hlookup1 name j hj
      exact ⟨row, by rw [if_neg h2, heq, hrow]⟩
  obtain ⟨sp, hsp, hsplen, hpt⟩ := optMap_eq_some_of_all _ _ hall
  refine ⟨sp, hsp, by rw [hsplen, List.length_append], ?_⟩
  intro i name hname
  constructor
  · intro j h2 hj
    rw [hpt i name hname, if_pos h2]
    exact (hlookup2 name j hj).1
  · intro j h2 hj
    rw [hpt i name hname, if_neg h2]
    exact (hlookup1 name j hj).1

/-- Counterexample for C7: with width-1 spectral rows (catalog 1: row `[1]`
named `A`; catalog 2: row `[3]` named `B`) the merged first row's value is
`[1, 1]` — the width-2 zero matrix broadcast duplicates the coefficient — and
not the catalog-1 value `[1]` looked up by name, so the claimed equality
fails. -/
theorem claim_C7_counterexample :
    reattachSpectral ([['A']] ++ [['B']]) [['A']] [['B']] [[1]] [[3]] =
      some [[1, 1], [3, 3]] ∧
    (['A'] ∈ ([['B']] : List Tok)) = False ∧
    ([[(1 : ℚ)]] : List (List ℚ))[0]? = some [1] ∧
    (some [[(1 : ℚ), 1], [3, 3]] : Option (List (List ℚ))).map (fun sp => sp[0]?) =
      some (some [1, 1]) ∧
    ([(1 : ℚ), 1] : List ℚ) ≠ [(1 : ℚ)] := by
  refine ⟨?_, by simp, by simp, by simp, by simp⟩
  rw [reattachSpectral]
  norm_num [optMap, assignRow2, dupIndices, List.range_succ,
    (by decide : (('A' : Char) = 'B') = False)]

/-- Witness for the amended C7 at width-2 catalogs: catalog 1 has row
`[1, 2]` named `A`, catalog 2 has row `[3, 4]` named `B`; the merged rows
take their values by name. -/
theorem claim_C7_spectralReattach_witness :
    ∃ sp, reattachSpectral ([['A']] ++ [['B']]) [['A']] [['B']]
        [[1, 2]] [[3, 4]] = some sp ∧
      sp.length = ([['A']] : List Tok).length + ([['B']] : List Tok).length ∧
      ∀ (i : Nat) (name : Tok), (([['A']] : List Tok) ++ [['B']])[i]? = some name →
        (∀ j : Nat, name ∈ ([['B']] : List Tok) → ([['B']] : List Tok)[j]? = some name →
          sp[i]? = ([[3, 4]] : List (List ℚ))[j]?) ∧
        (∀ j : Nat, name ∉ ([['B']] : List Tok) → ([['A']] : List Tok)[j]? = some name →
          sp[i]? = ([[1, 2]] : List (List ℚ))[j]?) := by
  exact claim_C7_spectralReattach [['A']] [['B']] [[1, 2]] [[3, 4]]
    (by simp) (by simp) (by simp) (by simp)
    (by intro row hrow; simp at hrow; rw [hrow]; rfl)
    (by intro row hrow; simp at hrow; rw [hrow]; rfl)

/-- A keep-last scan over elements that all fail the test keeps its
accumulator. -/
theorem foldl_scanLast_none {p : α → Prop} [DecidablePred p] (l : List α)
    (acc : Option α) (h : ∀ x ∈ l, ¬ p x) :
    l.foldl (fun acc x => if p x then some x else acc) acc = acc := by
  induction l generalizing acc with
  | nil => rfl
  | cons x xs ih =>
    rw [List.foldl_cons, if_neg (h x (by simp))]
    exact ih acc (fun y hy => h y (by simp [hy]))

/-- A keep-last scan over a list whose only passing element is `t` returns
`t`. -/
theorem foldl_scanLast_unique {p : α → Prop} [DecidablePred p]
    (pre rest : List α) (t : α) (acc : Option α)
    (hpre : ∀ x ∈ pre, ¬ p x) (hrest : ∀ x ∈ rest, ¬ p x) (ht : p t) :
    (pre ++ t :: rest).foldl (fun acc x => if p x then some x else acc) acc =
      some t := by
  rw [List.foldl_append, foldl_scanLast_none pre acc hpre, List.foldl_cons,
    if_pos ht, foldl_scanLast_none rest _ hrest]

/-- The first index of a value sitting right after an occurrence-free prefix. -/
theorem listIndex_append [DecidableEq K] (pre rest : List K) (t : K)
    (hpre : t ∉ pre) :
    listIndex (pre ++ t :: rest) t = some pre.length := by
  rw [listIndex, List.head?_eq_getElem?]
  rw [getElem?_dupIndices]
  constructor
  · rw [List.getElem?_append_right (le_refl pre.length)]
    simp
  · rw [List.take_left]
    by_contra hne
    exact hpre ((countOcc_pos_iff t pre).mp (by omega))

/-- Rejoin-loop phase 1: tokens strictly before `indx1` pass through. -/
theorem bjLoop_pre (n indx1 indx2 : Nat) (l rest : List Tok) :
    ∀ (i : Nat) (fixed toJoin : List Tok), i + l.length ≤ indx1 →
      bjLoop n indx1 indx2 (l ++ rest) i fixed toJoin =
        bjLoop n indx1 indx2 rest (i + l.length) (fixed ++ l) toJoin := by
  induction l with
  | nil =>
    intro i fixed toJoin _
    simp
  | cons cn l ih =>
    intro i fixed toJoin hle
    rw [List.cons_append, bjLoop, if_pos (by simp at hle; omega)]
    rw [ih (i + 1) (fixed ++ [cn]) toJoin (by simp at hle ⊢; omega)]
    simp only [List.append_assoc, List.singleton_append, List.length_cons]
    congr 1
    omega

/-- Rejoin-loop phase 2 (middle of the bracket span, never the last token of
the header): tokens are collected into the join buffer. -/
theorem bjLoop_mid (n indx1 indx2 : Nat) (l rest : List Tok) :
    ∀ (i : Nat) (fixed toJoin : List Tok),
      indx1 ≤ i → i + l.length ≤ indx2 + 1 → i + l.length ≤ n - 1 →
      bjLoop n indx1 indx2 (l ++ rest) i fixed toJoin =
        bjLoop n indx1 indx2 rest (i + l.length) fixed (toJoin ++ l) := by
  induction l with
  | nil =>
    intro i fixed toJoin _ _ _
    simp
  | cons cn l ih =>
    intro i fixed toJoin h1 h2 h3
    rw [List.cons_append, bjLoop, if_neg (by omega), if_pos (by simp at h2; omega),
      if_neg (by simp at h3; omega)]
    rw [ih (i + 1) fixed (toJoin ++ [cn]) (by omega) (by simp at h2 ⊢; omega)
      (by simp at h3 ⊢; omega)]
    simp only [List.append_assoc, List.singleton_append, List.length_cons]
    congr 1
    omega

/-- Rejoin-loop phase 4: tokens strictly after `indx2 + 1` pass through. -/
theorem bjLoop_post (n indx1 indx2 : Nat) (l : List Tok) :
    ∀ (i : Nat) (fixed toJoin : List Tok), indx1 ≤ indx2 → indx2 + 1 < i →
      bjLoop n indx1 indx2 l i fixed toJoin = fixed ++ l := by
  induction l with
  | nil =>
    intro i fixed toJoin _ _
    simp [bjLoop]
  | cons cn l ih =>
    intro i fixed toJoin h12 hi
    rw [bjLoop, if_neg (by omega), if_neg (by omega), if_neg (by omega)]
    rw [ih (i + 1) (fixed ++ [cn]) toJoin h12 (by omega)]
    simp

/-- C9 (confirmed): in a comma-split header in which exactly one column's
default is a bracketed list with internal commas — one token carries the
unmatched `[`, a later token the unmatched `]`, every other token is
bracket-free — the parser rejoins the comma-split fragments between the
unmatched brackets into one logical token, so the header has one column slot
in their place (the count drops by the number of split fragments), and the
default-extraction of the rejoined token yields the single float-list
default. -/
theorem claim_C9_headerBracketRejoin (pre mid post : List Tok) (t1 t2 : Tok)
    (hp1 : '[' ∈ t1) (hp2 : ']' ∉ t1) (hq1 : ']' ∈ t2) (hq2 : '[' ∉ t2)
    (hpre : ∀ x ∈ pre, '[' ∉ x ∧ ']' ∉ x)
    (hmid : ∀ x ∈ mid, '[' ∉ x ∧ ']' ∉ x)
    (hpost : ∀ x ∈ post, '[' ∉ x ∧ ']' ∉ x) :
    fixColNames (pre ++ t1 :: (mid ++ t2 :: post)) =
      some (pre ++ joinWith ',' (t1 :: (mid ++ [t2])) :: post) ∧
    (pre ++ joinWith ',' (t1 :: (mid ++ [t2])) :: post).length + (mid.length + 1) =
      (pre ++ t1 :: (mid ++ t2 :: post)).length ∧
    (∀ (nm dflt : Tok) (qs : List ℚ),
      splitOnChar '=' (joinWith ',' (t1 :: (mid ++ [t2]))) = [nm, dflt] →
      '[' ∈ dflt →
      optMap (fun p => parseFloat (pyStrip p))
        (splitOnChar ',' (pyStripSet [quoteChar, '[', ']'] dflt)) = some qs →
      parseColDefault (joinWith ',' (t1 :: (mid ++ [t2]))) =
        some (HeaderDefault.list qs)) := by
  have hts : pre ++ t1 :: (mid ++ t2 :: post) =
      (pre ++ t1 :: mid) ++ t2 :: post := by
    simp
  have hstart : findCnStart (pre ++ t1 :: (mid ++ t2 :: post)) = some t1 := by
    rw [findCnStart]
    exact foldl_scanLast_unique pre (mid ++ t2 :: post) t1 none
      (fun x hx h => (hpre x hx).1 h.1)
      (fun x hx => by
        rcases List.mem_append.mp hx with h | h
        · exact fun hc => (hmid x h).1 hc.1
        · rcases List.mem_cons.mp h with rfl | h
          · exact fun hc => hq2 hc.1
          · exact fun hc => (hpost x h).1 hc.1)
      ⟨hp1, hp2⟩
  have hend : findCnEnd (pre ++ t1 :: (mid ++ t2 :: post)) = some t2 := by
    rw [findCnEnd, hts]
    exact foldl_scanLast_unique (pre ++ t1 :: mid) post t2 none
      (fun x hx => by
        rcases List.mem_append.mp hx with h | h
        · exact fun hc => (hpre x h).2 hc.1
        · rcases List.mem_cons.mp h with rfl | h
          · exact fun hc => hp2 hc.1
          · exact fun hc => (hmid x h).2 hc.1)
      (fun x hx hc => (hpost x hx).2 hc.1)
      ⟨hq1, hq2⟩
  have hi1 : listIndex (pre ++ t1 :: (mid ++ t2 :: post)) t1 = some pre.length := by
    apply listIndex_append
    intro hmem
    exact (hpre t1 hmem).1 hp1
  have hi2 : listIndex (pre ++ t1 :: (mid ++ t2 :: post)) t2 =
      some (pre.length + (mid.length + 1)) := by
    rw [hts]
    have := listIndex_append (pre ++ t1 :: mid) post t2 (by
      intro hmem
      rcases List.mem_append.mp hmem with h | h
      · exact (hpre t2 h).2 hq1
      · rcases List.mem_cons.mp h with he | h
        · exact hp2 (he ▸ hq1)
        · exact (hmid t2 h).2 hq1)
    rw [this]
    simp
  have hloop : bracketFixLoop (pre ++ t1 :: (mid ++ t2 :: post)) pre.length
      (pre.length + (mid.length + 1)) =
      pre ++ joinWith ',' (t1 :: (mid ++ [t2])) :: post := by
    rw [bracketFixLoop]
    rw [show pre ++ t1 :: (mid ++ t2 :: post) =
      pre ++ (t1 :: (mid ++ t2 :: post)) from rfl]
    rw [bjLoop_pre _ _ _ pre _ 0 [] [] (by omega)]
    rw [List.nil_append, Nat.zero_add]
    cases post with
    | nil =>
      rw [show t1 :: (mid ++ t2 :: ([] : List Tok)) =
        (t1 :: mid) ++ ([t2] ++ []) from by simp]
      rw [bjLoop_mid _ _ _ (t1 :: mid) ([t2] ++ []) pre.length pre []
        (le_refl _)
        (by simp only [List.length_cons]; omega)
        (by simp only [List.length_append, List.length_cons, List.length_nil]
            omega)]
      rw [List.singleton_append, bjLoop,
        if_neg (by simp only [List.length_cons]; omega),
        if_pos (by simp only [List.length_cons]; omega),
        if_pos (by simp only [List.length_append, List.length_cons,
          List.length_nil]; omega)]
      rw [bjLoop]
      simp
    | cons p post2 =>
      rw [show t1 :: (mid ++ t2 :: (p :: post2)) =
        (t1 :: (mid ++ [t2])) ++ (p :: post2) from by simp]
      rw [bjLoop_mid _ _ _ (t1 :: (mid ++ [t2])) (p :: post2) pre.length pre []
        (le_refl _)
        (by simp only [List.length_cons, List.length_append,
          List.length_nil]; omega)
        (by simp only [List.length_append, List.length_cons, List.length_nil]
            omega)]
      rw [List.nil_append, bjLoop,
        if_neg (by simp only [List.length_cons, List.length_append,
          List.length_nil]; omega),
        if_neg (by simp only [List.length_cons, List.length_append,
          List.length_nil]; omega),
        if_pos (by simp only [List.length_cons, List.length_append,
          List.length_nil]; omega)]
      rw [bjLoop_post _ _ _ post2 _ _ _ (by omega)
        (by simp only [List.length_cons, List.length_append,
          List.length_nil]; omega)]
      simp
  refine ⟨?_, by simp; omega, ?_⟩
  · rw [fixColNames, hstart, hend]
    show (match listIndex (pre ++ t1 :: (mid ++ t2 :: post)) t1,
        listIndex (pre ++ t1 :: (mid ++ t2 :: post)) t2 with
      | some i1, some i2 =>
        some (bracketFixLoop (pre ++ t1 :: (mid ++ t2 :: post)) i1 i2)
      | _, _ => none) =
      some (pre ++ joinWith ',' (t1 :: (mid ++ [t2])) :: post)
    rw [hi1, hi2]
    show some (bracketFixLoop (pre ++ t1 :: (mid ++ t2 :: post)) pre.length
      (pre.length + (mid.length + 1))) = _
    rw [hloop]
  · intro nm dflt qs hsplit hbr hqs
    rw [parseColDefault, hsplit]
    show (if '[' ∈ dflt then _ else _) = _
    rw [if_pos hbr, hqs]

/-- Witness for C9: the comma-split header
`Name, Type, SpectralIndex='[0.0, 0.0]'` (quotes around the bracketed
default) rejoins its two fragments into a single logical SpectralIndex
token. -/
theorem claim_C9_headerBracketRejoin_witness :
    fixColNames
      ([("Name".toList), ("Type".toList)] ++
        (("SpectralIndex=".toList ++ quoteChar :: ('[' :: ("0.0".toList)))) ::
        ([] ++ (("0.0]".toList ++ [quoteChar])) :: [])) =
      some ([("Name".toList), ("Type".toList)] ++
        joinWith ','
          ((("SpectralIndex=".toList ++ quoteChar :: ('[' :: ("0.0".toList)))) ::
            ([] ++ [(("0.0]".toList ++ [quoteChar]))])) :: []) :=
  (claim_C9_headerBracketRejoin [("Name".toList), ("Type".toList)] [] []
    _ _ (by decide) (by decide) (by decide) (by decide) (by decide) (by decide)
    (by decide)).1

/-- Line processing distributes over concatenation of line sequences. -/
theorem processDataLines_append (numCols : Nat) (st : ParseState)
    (l1 l2 : List (List Tok)) :
    processDataLines numCols st (l1 ++ l2) =
      match processDataLines numCols st l1 with
      | Except.ok st2 => processDataLines numCols st2 l2
      | Except.error e => Except.error e := by
  induction l1 generalizing st with
  | nil => rfl
  | cons l ls ih =>
    rw [List.cons_append, processDataLines, processDataLines]
    cases processDataLine numCols st l with
    | ok st2 => exact ih st2
    | error e => rfl

/-- C10 (confirmed): a data line whose first comma-split field is blank and
which has 4 or fewer fields is silently skipped — no row is buffered, no
patch metadata is recorded, no error is raised, and removing the line from
any line sequence does not change the scan's outcome.  Only blank-first lines
with more than 4 fields become patch-definition lines (a successful one
records exactly one metadata entry and buffers no row), and lines with a
non-blank first field are buffered as (padded) rows. -/
theorem claim_C10_blankShortLineSkipped (numCols : Nat) (st : ParseState)
    (cols : List Tok) :
    (pyStrip cols.headI = [] → cols.length ≤ 4 →
      processDataLine numCols st cols = Except.ok st ∧
      ∀ (ls1 ls2 : List (List Tok)),
        processDataLines numCols st (ls1 ++ cols :: ls2) =
          processDataLines numCols st (ls1 ++ ls2)) ∧
    (pyStrip cols.headI = [] → cols.length > 4 →
      ∀ res : ParseState, processDataLine numCols st cols = Except.ok res →
        res.rows = st.rows ∧
        ∃ nm ra dec, res.meta = st.meta ++ [(nm, (ra, dec))]) ∧
    (pyStrip cols.headI ≠ [] →
      processDataLine numCols st cols =
        Except.ok ⟨st.meta, st.rows ++ [padTokens numCols cols]⟩) := by
  refine ⟨?_, ?_, ?_⟩
  · intro hblank hlen
    have hskip : processDataLine numCols st cols = Except.ok st := by
      rw [processDataLine, if_pos hblank, dif_neg (by omega)]
    refine ⟨hskip, ?_⟩
    intro ls1 ls2
    rw [processDataLines_append, processDataLines_append]
    cases processDataLines numCols st ls1 with
    | error e => rfl
    | ok st2 =>
      show processDataLines numCols st2 (cols :: ls2) = processDataLines numCols st2 ls2
      rw [processDataLines]
      rw [show processDataLine numCols st2 cols = Except.ok st2 from by
        rw [processDataLine, if_pos hblank, dif_neg (by omega)]]
  · intro hblank hlen res hres
    rw [processDataLine, if_pos hblank, dif_pos hlen] at hres
    match hra : RA2Angle [PyVal.str (pyStrip (cols.get ⟨3, by omega⟩))],
        hdec : Dec2Angle [PyVal.str (pyStrip (cols.get ⟨4, by omega⟩))] with
    | some [ra], some [dec] =>
      rw [hra, hdec] at hres
      have hres2 : res =
          ⟨st.meta ++ [(pyStrip (cols.get ⟨2, by omega⟩), (ra, dec))], st.rows⟩ := by
        cases hres
        rfl
      subst hres2
      exact ⟨rfl, pyStrip (cols.get ⟨2, by omega⟩), ra, dec, rfl⟩
    | some [], _ =>
      rw [hra] at hres
      cases hres
    | some (x :: y :: t), _ =>
      rw [hra] at hres
      cases hres
    | none, _ =>
      rw [hra] at hres
      cases hres
    | some [ra], some [] =>
      rw [hra, hdec] at hres
      cases hres
    | some [ra], some (x :: y :: t) =>
      rw [hra, hdec] at hres
      cases hres
    | some [ra], none =>
      rw [hra, hdec] at hres
      cases hres
  · intro hblank
    rw [processDataLine, if_neg hblank]

/-- Witness for C10: the two-field line with a blank first field
`" , x"` is skipped outright. -/
theorem claim_C10_blankShortLineSkipped_witness :
    processDataLine 5 ⟨[], []⟩ [[' '], ("x".toList)] = Except.ok ⟨[], []⟩ :=
  ((claim_C10_blankShortLineSkipped 5 ⟨[], []⟩ [[' '], ("x".toList)]).1
    (by decide) (by decide)).1

/-- Characters with equal code points are equal. -/
theorem charEq_of_toNat {a b : Char} (h : a.toNat = b.toNat) : a = b :=
  Char.ext (UInt32.ext h)

/-- Byte-wise name comparison is total. -/
theorem leTok_total (a : Tok) : ∀ b : Tok, leTok a b = true ∨ leTok b a = true := by
  induction a with
  | nil =>
    intro b
    left
    rfl
  | cons x xs ih =>
    intro b
    cases b with
    | nil =>
      right
      rfl
    | cons y ys =>
      rcases Nat.lt_trichotomy x.toNat y.toNat with h | h | h
      · left
        rw [leTok, if_pos h]
      · rcases ih ys with h2 | h2
        · left
          rw [leTok, if_neg (by omega), if_neg (by omega)]
          exact h2
        · right
          rw [leTok, if_neg (by omega), if_neg (by omega)]
          exact h2
      · right
        rw [leTok, if_pos h]

/-- Byte-wise name comparison is transitive. -/
theorem leTok_trans (a : Tok) : ∀ b c : Tok,
    leTok a b = true → leTok b c = true → leTok a c = true := by
  induction a with
  | nil =>
    intro b c _ _
    rfl
  | cons x xs ih =>
    intro b c h1 h2
    cases b with
    | nil =>
      simp [leTok] at h1
    | cons y ys =>
      cases c with
      | nil =>
        simp [leTok] at h2
      | cons z zs =>
        rw [leTok] at h1 h2 ⊢
        by_cases hxy : x.toNat < y.toNat
        · rw [if_pos hxy] at h1
          by_cases hyz : y.toNat < z.toNat
          · rw [if_pos (by omega)]
          · by_cases hzy : z.toNat < y.toNat
            · rw [if_neg (by omega), if_pos hzy] at h2
              cases h2
            · rw [if_pos (by omega)]
        · by_cases hyx : y.toNat < x.toNat
          · rw [if_neg (by omega), if_pos hyx] at h1
            cases h1
          · by_cases hyz : y.toNat < z.toNat
            · rw [if_pos (by omega)]
            · by_cases hzy : z.toNat < y.toNat
              · rw [if_neg (by omega), if_pos hzy] at h2
                cases h2
              · rw [if_neg (by omega), if_neg (by omega)] at h1 h2 ⊢
                exact ih ys zs h1 h2

/-- Byte-wise name comparison is antisymmetric. -/
theorem leTok_antisymm (a : Tok) : ∀ b : Tok,
    leTok a b = true → leTok b a = true → a = b := by
  induction a with
  | nil =>
    intro b _ h2
    cases b with
    | nil => rfl
    | cons y ys =>
      simp [leTok] at h2
  | cons x xs ih =>
    intro b h1 h2
    cases b with
    | nil =>
      simp [leTok] at h1
    | cons y ys =>
      rw [leTok] at h1 h2
      by_cases hxy : x.toNat < y.toNat
      · rw [if_neg (by omega), if_pos hxy] at h2
        cases h2
      · by_cases hyx : y.toNat < x.toNat
        · rw [if_neg (by omega), if_pos hyx] at h1
          cases h1
        · rw [if_neg (by omega), if_neg (by omega)] at h1
          rw [if_neg (by omega), if_neg (by omega)] at h2
          rw [charEq_of_toNat (by omega : x.toNat = y.toNat), ih ys h1 h2]

/-- Stable insertion permutes to consing. -/
theorem insertSorted_perm (le : K → K → Bool) (x : K × α) (l : List (K × α)) :
    (insertSorted le x l).Perm (x :: l) := by
  induction l with
  | nil => exact List.Perm.refl _
  | cons y ys ih =>
    rw [insertSorted]
    by_cases h : le y.1 x.1 = true
    · rw [if_pos h]
      exact (ih.cons y).trans (List.Perm.swap x y ys)
    · rw [if_neg h]

/-- The grouping sort permutes the rows. -/
theorem sortByKey_perm (le : K → K → Bool) (rows : List (K × α)) :
    (sortByKey le rows).Perm rows := by
  have haux : ∀ (rs acc : List (K × α)),
      (rs.foldl (fun acc r => insertSorted le r acc) acc).Perm (rs ++ acc) := by
    intro rs
    induction rs with
    | nil =>
      intro acc
      simp
    | cons r rs ih =>
      intro acc
      rw [List.foldl_cons]
      refine (ih (insertSorted le r acc)).trans ?_
      refine (List.Perm.append_left rs (insertSorted_perm le r acc)).trans ?_
      exact List.perm_middle
  simpa using haux rows []

/-- Stable insertion preserves key-sortedness (for a total transitive
comparison). -/
theorem insertSorted_pairwise (le : K → K → Bool)
    (htotal : ∀ a b : K, le a b = true ∨ le b a = true)
    (htrans : ∀ a b c : K, le a b = true → le b c = true → le a c = true)
    (x : K × α) (l : List (K × α))
    (hl : l.Pairwise fun a b => le a.1 b.1 = true) :
    (insertSorted le x l).Pairwise fun a b => le a.1 b.1 = true := by
  induction l with
  | nil => exact List.pairwise_singleton _ _
  | cons y ys ih =>
    obtain ⟨hy, hys⟩ := List.pairwise_cons.mp hl
    rw [insertSorted]
    by_cases h : le y.1 x.1 = true
    · rw [if_pos h]
      refine List.pairwise_cons.mpr ⟨?_, ih hys⟩
      intro z hz
      rcases List.mem_cons.mp ((insertSorted_perm le x ys).mem_iff.mp hz) with rfl | hz2
      · exact h
      · exact hy z hz2
    · rw [if_neg h]
      have hxy : le x.1 y.1 = true := by
        rcases htotal x.1 y.1 with h2 | h2
        · exact h2
        · exact absurd h2 h
      refine List.pairwise_cons.mpr ⟨?_, hl⟩
      intro z hz
      rcases List.mem_cons.mp hz with rfl | hz2
      · exact hxy
      · exact htrans _ _ _ hxy (hy z hz2)

/-- The grouping sort leaves the key column pairwise ordered. -/
theorem sortByKey_pairwise (le : K → K → Bool)
    (htotal : ∀ a b : K, le a b = true ∨ le b a = true)
    (htrans : ∀ a b c : K, le a b = true → le b c = true → le a c = true)
    (rows : List (K × α)) :
    (sortByKey le rows).Pairwise fun a b => le a.1 b.1 = true := by
  have haux : ∀ (rs acc : List (K × α)),
      (acc.Pairwise fun a b => le a.1 b.1 = true) →
      ((rs.foldl (fun acc r => insertSorted le r acc) acc).Pairwise
        fun a b => le a.1 b.1 = true) := by
    intro rs
    induction rs with
    | nil =>
      intro acc h
      exact h
    | cons r rs ih =>
      intro acc h
      rw [List.foldl_cons]
      exact ih _ (insertSorted_pairwise le htotal htrans r acc h)
  exact haux rows [] (List.Pairwise.nil)

/-- Adjacent deduplication preserves membership. -/
theorem mem_dedupAdj [DecidableEq K] (l : List K) (x : K) :
    x ∈ dedupAdj l ↔ x ∈ l := by
  induction l with
  | nil => simp [dedupAdj]
  | cons a t ih =>
    cases t with
    | nil => simp [dedupAdj]
    | cons b t2 =>
      rw [dedupAdj]
      by_cases hab : a = b
      · subst hab
        rw [if_pos rfl, ih]
        simp
      · rw [if_neg hab]
        rw [List.mem_cons, ih, List.mem_cons]
        simp

/-- On a key column sorted by an antisymmetric comparison, adjacent
deduplication yields each key once. -/
theorem dedupAdj_nodup [DecidableEq K] (le : K → K → Bool)
    (hanti : ∀ a b : K, le a b = true → le b a = true → a = b) :
    ∀ l : List K, (l.Pairwise fun a b => le a b = true) → (dedupAdj l).Nodup := by
  intro l
  induction l with
  | nil =>
    intro _
    exact List.nodup_nil
  | cons a t ih =>
    intro hl
    cases t with
    | nil => simp [dedupAdj]
    | cons b t2 =>
      obtain ⟨ha, ht⟩ := List.pairwise_cons.mp hl
      rw [dedupAdj]
      by_cases hab : a = b
      · rw [if_pos hab]
        exact ih ht
      · rw [if_neg hab]
        refine List.nodup_cons.mpr ⟨?_, ih ht⟩
        intro hmem
        rcases List.mem_cons.mp ((mem_dedupAdj _ _).mp hmem) with rfl | hmem3
        · exact hab rfl
        · obtain ⟨hb, _⟩ := List.pairwise_cons.mp ht
          exact hab (hanti a b (ha b (by simp)) (hb a hmem3))

/-- C4 amended: when writing a patch-carrying catalog, all patch-definition
lines are emitted first — one per distinct Patch value (conjuncts 4 and 5),
in sorted byte order of the patch names, each carrying the meta reference
position when present and (0, 0) otherwise (conjunct 1) — and then all rows
follow, as a permutation of the input rows (conjunct 2) sorted by Patch value
(conjunct 3), so rows of equal Patch value are contiguous (conjunct 6).
Patch lines are NOT interleaved before each patch's rows, and patches follow
sorted order, not first-seen order. -/
theorem claim_C4_writerPatchGrouping (meta : List (Tok × (ℚ × ℚ)))
    (rows : List (Tok × α)) :
    (skyModelWriterLines leTok true meta rows =
      OutLine.formatLine ::
        ((dedupAdj ((sortByKey leTok rows).map Prod.fst)).map fun p =>
          match lookupMeta meta p with
          | some pos => OutLine.patchLine p pos.1 pos.2
          | none => OutLine.patchLine p 0 0) ++
        (sortByKey leTok rows).map OutLine.srcLine) ∧
    ((sortByKey leTok rows).Perm rows) ∧
    (((sortByKey leTok rows).map Prod.fst).Pairwise fun a b => leTok a b = true) ∧
    ((dedupAdj ((sortByKey leTok rows).map Prod.fst)).Nodup) ∧
    (∀ p : Tok, p ∈ dedupAdj ((sortByKey leTok rows).map Prod.fst) ↔
      p ∈ rows.map Prod.fst) ∧
    (∀ i j k : Nat, i < j → j < k →
      ((sortByKey leTok rows).map Prod.fst)[i]? =
        ((sortByKey leTok rows).map Prod.fst)[k]? →
      ((sortByKey leTok rows).map Prod.fst)[j]? =
        ((sortByKey leTok rows).map Prod.fst)[i]?) := by
  have hpw : ((sortByKey leTok rows).map Prod.fst).Pairwise
      fun a b => leTok a b = true := by
    rw [List.pairwise_map]
    exact sortByKey_pairwise leTok leTok_total leTok_trans rows
  refine ⟨rfl, sortByKey_perm leTok rows, hpw,
    dedupAdj_nodup leTok leTok_antisymm _ hpw, ?_, ?_⟩
  · intro p
    rw [mem_dedupAdj]
    exact ((sortByKey_perm leTok rows).map Prod.fst).mem_iff
  · intro i j k hij hjk hik
    by_cases hk : k < ((sortByKey leTok rows).map Prod.fst).length
    · have hi : i < ((sortByKey leTok rows).map Prod.fst).length := by omega
      have hj : j < ((sortByKey leTok rows).map Prod.fst).length := by omega
      rw [List.getElem?_eq_getElem hi, List.getElem?_eq_getElem hk] at hik
      have hik2 := Option.some.inj hik
      have hpij := (List.pairwise_iff_getElem.mp hpw) i j hi hj hij
      have hpjk := (List.pairwise_iff_getElem.mp hpw) j k hj hk hjk
      rw [List.getElem?_eq_getElem hi, List.getElem?_eq_getElem hj]
      rw [leTok_antisymm _ _ hpij (by rw [← hik2] at hpjk; exact hpjk)]
    · have hkn : ((sortByKey leTok rows).map Prod.fst)[k]? = none :=
        List.getElem?_eq_none (by omega)
      rw [hkn] at hik
      have hin : ¬ i < ((sortByKey leTok rows).map Prod.fst).length := by
        intro hi
        rw [List.getElem?_eq_getElem hi] at hik
        cases hik
      rw [List.getElem?_eq_none (by omega), List.getElem?_eq_none (by omega)]

/-- Counterexample for C4: writing two one-row patches listed as `B` then
`A` with no recorded positions.  The code emits both patch-definition lines
first, in sorted order `A`, `B`, then both rows sorted by patch; the claimed
output interleaves each patch line before its rows in first-seen order `B`,
`A`.  The two line sequences differ. -/
theorem claim_C4_counterexample :
    skyModelWriterLines leTok true [] [(['B'], (0 : Nat)), (['A'], (1 : Nat))] =
      [OutLine.formatLine, OutLine.patchLine ['A'] 0 0, OutLine.patchLine ['B'] 0 0,
        OutLine.srcLine (['A'], 1), OutLine.srcLine (['B'], 0)] ∧
    skyModelWriterSpecLines true [] [(['B'], (0 : Nat)), (['A'], (1 : Nat))] =
      [OutLine.formatLine, OutLine.patchLine ['B'] 0 0, OutLine.srcLine (['B'], 0),
        OutLine.patchLine ['A'] 0 0, OutLine.srcLine (['A'], 1)] ∧
    skyModelWriterLines leTok true [] [(['B'], (0 : Nat)), (['A'], (1 : Nat))] ≠
      skyModelWriterSpecLines true [] [(['B'], (0 : Nat)), (['A'], (1 : Nat))] := by
  refine ⟨by decide, by decide, by decide⟩

/-- Witness for the amended C4 at the counterexample table: the sorted rows
are a permutation of the input rows. -/
theorem claim_C4_writerPatchGrouping_witness :
    (sortByKey leTok [(['B'], (0 : Nat)), (['A'], (1 : Nat))]).Perm
      [(['B'], (0 : Nat)), (['A'], (1 : Nat))] :=
  (claim_C4_writerPatchGrouping [] [(['B'], (0 : Nat)), (['A'], (1 : Nat))]).2.1

/-- C3 (code bug): the read/write/read round trip fails on negative
declinations because `Dec2Angle` ADDS the minute and second terms to the
signed degree term instead of growing the magnitude.  Reading `-10.30.00`
yields `-10 + 30/60 = -9.5` degrees; the writer renders `-9.5` degrees as
`-9.30.00` (sign plus sexagesimal fields of the magnitude); a second read
converts that to `-9 + 30/60 = -8.5` degrees, which differs from the first
read, so the claimed round-trip identity does not hold.  The discrepancy is
a real half-degree error, not angle-rendering precision. -/
theorem claim_C3_roundTrip_decSign :
    Dec2Angle [PyVal.str (['-', '1', '0'] ++ '.' :: (['3', '0'] ++ '.' :: ['0', '0']))] =
      some [-19 / 2] ∧
    formatDecSex (-19 / 2) = ['-', '9'] ++ '.' :: (['3', '0'] ++ '.' :: ['0', '0']) ∧
    Dec2Angle [PyVal.str (['-', '9'] ++ '.' :: (['3', '0'] ++ '.' :: ['0', '0']))] =
      some [-17 / 2] ∧
    (-17 / 2 : ℚ) ≠ -19 / 2 := by
  have hm30 : parseFloat ['3', '0'] = some 30 := by
    rw [parseFloat, show parseFloatSyn ['3', '0'] = some ⟨false, 30, 0, 0⟩ from by decide]
    simp [floatLitVal]
  have hs00 : parseFloat ['0', '0'] = some 0 := by
    rw [parseFloat, show parseFloatSyn ['0', '0'] = some ⟨false, 0, 0, 0⟩ from by decide]
    simp [floatLitVal]
  refine ⟨?_, ?_, ?_, by norm_num⟩
  · have hd : parseFloat ['-', '1', '0'] = some (-10) := by
      rw [parseFloat,
        show parseFloatSyn ['-', '1', '0'] = some ⟨true, 10, 0, 0⟩ from by decide]
      simp [floatLitVal]
    have h1 := decSexToDeg_decomp (a := ['-', '1', '0']) (b := ['3', '0'])
      (c := ['0', '0']) (by decide) (by decide) (by decide) (by decide) (by decide)
      hd hm30 hs00
    have h2 : decSexToDeg ['-', '1', '0', '.', '3', '0', '.', '0', '0'] =
        some (-10 + 30 / 60 + 0 / 3600) := by simpa using h1
    simp only [Dec2Angle]
    rw [optMap]
    simp [h2, optMap]
    norm_num
  · have hfl : (⌊|(-19 / 2 : ℚ)| * 3600⌋).toNat = 34200 := by
      have habs : |(-19 / 2 : ℚ)| * 3600 = ((34200 : ℤ) : ℚ) := by
        rw [abs_of_nonpos (by norm_num : (-19 / 2 : ℚ) ≤ 0)]
        norm_num
      rw [habs, Int.floor_intCast]
      rfl
    simp only [formatDecSex, hfl]
    rw [if_pos (by norm_num : (-19 / 2 : ℚ) < 0)]
    decide
  · have hd : parseFloat ['-', '9'] = some (-9) := by
      rw [parseFloat,
        show parseFloatSyn ['-', '9'] = some ⟨true, 9, 0, 0⟩ from by decide]
      simp [floatLitVal]
    have h1 := decSexToDeg_decomp (a := ['-', '9']) (b := ['3', '0'])
      (c := ['0', '0']) (by decide) (by decide) (by decide) (by decide) (by decide)
      hd hm30 hs00
    have h2 : decSexToDeg ['-', '9', '.', '3', '0', '.', '0', '0'] =
        some (-9 + 30 / 60 + 0 / 3600) := by simpa using h1
    simp only [Dec2Angle]
    rw [optMap]
    simp [h2, optMap]
    norm_num

end LSM
